import Mathlib

/-!
Verification of the `filesystem` library (S3/local filesystem adapter).

This file shallowly embeds the parts of the source that the claims touch:

* the path utilities of `s3.go` (`normalizeName`, `nameIsADirectoryPath`,
  `nameIsADirectoryStub`, `stubToDir`, `nameToDir`, `nameToStub`), together
  with a faithful model of Go's `path.Clean` / `path.Dir`;
* the S3 adapter operations `IsEmptyPath`, `Remove`, `Count`, `openFile`
  over a bucket modelled as a list of stored keys (the minio client is an
  external collaborator: `ListObjects` filters by prefix, `StatObject`
  tests membership, `RemoveObject` deletes, keys are stored without a
  leading slash);
* the operation-callback wrapper of `callbacks.go`;
* the opened-files registry of `s3_opened_files_list.go`;
* the empty-subtree cleaner of the cleaner file (`bfs`,
  `recursiveEmptyDelete`, `dfs`, `RemoveEmptyDirs`) over a tree model of a
  hierarchical filesystem state.

Strings are handled at the character-list level (`List Char`) so that all
definitions are executable and all string lemmas are provable by structural
induction.
-/

namespace FSV

/-! ## Character-level string utilities -/

/-- Splitting a character list at `'/'`, keeping empty segments
(the analogue of splitting a Go string on `"/"`). -/
def splitSeg : List Char → List (List Char)
  | [] => [[]]
  | c :: cs =>
    if c = '/' then [] :: splitSeg cs
    else
      match splitSeg cs with
      | [] => [[c]]
      | s :: rest => (c :: s) :: rest

/-- Joining segments with `'/'`. -/
def joinSegs : List (List Char) → List Char
  | [] => []
  | [s] => s
  | s :: rest => s ++ '/' :: joinSegs rest

/-- One step of Go `path.Clean`'s segment processing: drop empty and `"."`
segments; on `".."` pop the last kept segment unless there is none (then, for
a rooted path drop the `".."`, for a relative path keep it) or the last kept
segment is itself `".."` (then keep it). `acc` is the stack of kept segments
in reverse order. -/
def cleanSegsAux (rooted : Bool) : List (List Char) → List (List Char) → List (List Char)
  | acc, [] => acc.reverse
  | acc, s :: rest =>
    if s = [] ∨ s = ['.'] then cleanSegsAux rooted acc rest
    else if s = ['.', '.'] then
      match acc with
      | [] => if rooted then cleanSegsAux rooted [] rest else cleanSegsAux rooted [s] rest
      | t :: acc' =>
        if t = ['.', '.'] then cleanSegsAux rooted (s :: acc) rest
        else cleanSegsAux rooted acc' rest
    else cleanSegsAux rooted (s :: acc) rest

/-- Go's `path.Clean` on character lists: canonicalize dot segments and
duplicate slashes; an empty result becomes `"."` (relative) or `"/"`
(rooted). -/
def pathCleanChars (cs : List Char) : List Char :=
  let rooted : Bool := cs.head? == some '/'
  let segs := cleanSegsAux rooted [] (splitSeg cs)
  match segs with
  | [] => if rooted then ['/'] else ['.']
  | _ => if rooted then '/' :: joinSegs segs else joinSegs segs

/-- Characters matched by the drive-letter class `[A-Za-z?]` of
`driveLetterRegexp` in `s3.go`. -/
def isDriveLetterChar (c : Char) : Bool :=
  ('A' ≤ c && c ≤ 'Z') || ('a' ≤ c && c ≤ 'z') || c = '?'

/-- `driveLetterRegexp.ReplaceAllString(name, "")`: the regexp is anchored at
the start, so at most the two leading characters `X:` are removed. -/
def stripDriveChars : List Char → List Char
  | c0 :: c1 :: rest =>
    if isDriveLetterChar c0 && c1 = ':' then rest else c0 :: c1 :: rest
  | cs => cs

/-- `strings.HasSuffix(name, "/")` at character level. -/
def lastIsSlash (cs : List Char) : Bool := cs.getLast? = some '/'

/-- The `ReplaceAll(name, "\\", "/")` step. -/
def replBackslash (cs : List Char) : List Char :=
  cs.map fun c => if c = '\\' then '/' else c

/-- The `if !strings.HasPrefix(name, "/") { name = "/" + name }` step. -/
def ensureLeadSlash (n : List Char) : List Char :=
  if n.head? = some '/' then n else '/' :: n

/-- The `if isDir && name != "/" { name += "/" }` step. -/
def restoreDirSlash (isDir : Bool) (n : List Char) : List Char :=
  if isDir && n ≠ ['/'] then n ++ ['/'] else n

/-- `S3.normalizeName` from `s3.go`: empty input becomes `"/"`; remember
whether the input was a directory path; strip a drive-letter prefix; apply
`path.Clean`; replace backslashes with slashes; ensure a leading `'/'`;
restore the trailing `'/'` when the input was a directory path and the
result is not root.  (The sequential reassignments of `name` in the Go code
are written as a composition.) -/
def normalizeChars (name : List Char) : List Char :=
  let name := if name = [] then ['/'] else name
  restoreDirSlash (lastIsSlash name)
    (ensureLeadSlash (replBackslash (pathCleanChars (stripDriveChars name))))

/-- `S3.normalizeName` on Lean strings. -/
def normalizeName (s : String) : String := String.mk (normalizeChars s.data)

/-- The stub filename `DirStubFileName = ".dir"` from `s3.go`. -/
def dirStubChars : List Char := ['.', 'd', 'i', 'r']

/-- `S3.nameIsADirectoryPath`: ends with `'/'`. -/
def nameIsADirPathChars (cs : List Char) : Bool := lastIsSlash cs

/-- `S3.nameIsADirectoryStub`: ends with `"/" + DirStubFileName`. -/
def nameIsADirStubChars (cs : List Char) : Bool :=
  List.isSuffixOf ('/' :: dirStubChars) cs

/-- `S3.nameIsADirectory`: directory path or directory stub. -/
def nameIsADirChars (cs : List Char) : Bool :=
  nameIsADirPathChars cs || nameIsADirStubChars cs

/-- `S3.nameToDir`: append `'/'` unless already present. -/
def nameToDirChars (cs : List Char) : List Char :=
  if lastIsSlash cs then cs else cs ++ ['/']

/-- `S3.nameToStub`: `nameToDir(name) + DirStubFileName`. -/
def nameToStubChars (cs : List Char) : List Char :=
  nameToDirChars cs ++ dirStubChars

/-- Go's `path.Dir`: everything up to the final `'/'` (exclusive of the last
element), `path.Clean`ed; with no `'/'` present the result is `"."`. -/
def pathDirChars (cs : List Char) : List Char :=
  pathCleanChars (dirPartChars cs)
where
  /-- The part of the path up to and including the final `'/'`
  (Go `path.Split`'s first component). -/
  dirPartChars (cs : List Char) : List Char :=
    (cs.reverse.dropWhile fun c => c ≠ '/').reverse

/-- `S3.stubToDir`: a non-stub name is returned unchanged; a stub name
becomes `TrimPrefix(Dir(name) + "/", ".")`. -/
def stubToDirChars (cs : List Char) : List Char :=
  if nameIsADirStubChars cs then
    trimLeadDot (pathDirChars cs ++ ['/'])
  else cs
where
  /-- `strings.TrimPrefix(s, ".")`. -/
  trimLeadDot : List Char → List Char
    | '.' :: rest => rest
    | cs => cs

/-- `strings.TrimPrefix(name, "/")` as used for listing-prefix computation. -/
def trimLeadSlash : List Char → List Char
  | '/' :: rest => rest
  | cs => cs

/-- A segment kept by `path.Clean`: neither empty nor `"."`. -/
def keepSeg (s : List Char) : Bool := !(s == [] || s == ['.'])

/-- A segment surviving `path.Clean` in the well-behaved case: nonempty, not a
dot segment, and free of separators and backslashes. -/
def GoodSeg (s : List Char) : Prop :=
  s ≠ [] ∧ s ≠ ['.'] ∧ s ≠ ['.', '.'] ∧ '/' ∉ s ∧ '\\' ∉ s

/-- `'/'` followed by the join of the segments: the canonical rooted form that
`normalizeName` produces before the trailing-slash restoration. -/
def rootedJoin (S : List (List Char)) : List Char := '/' :: joinSegs S

/-- The normal form of a `normalizeName` result: the canonical rooted join,
with the trailing slash restored when the input was a directory path. -/
def mkForm (S : List (List Char)) (b : Bool) : List Char :=
  restoreDirSlash b (rootedJoin S)

/-! ## Error model

Go `error` values are modelled as `Option GoErr`: `none` is `nil`.  Sentinel
errors of the package get their own constructors; anonymous backend errors
get a constructor per failure site; `user n` stands for an arbitrary
caller-supplied error (callback results, listing errors). -/

inductive GoErr : Type where
  | errDirectoryNotEmpty
  | errCantOpenS3Directory
  | errUnknownFileMode
  | errFileAlreadyOpened
  | errNotADirectory
  | errStat
  | errReadDir
  | errRemove
  | errMakePath
  | errGetObject
  | errCopy
  | errReopen
  | errFuel
  | user (n : Nat)
deriving DecidableEq, Repr

/-! ## Object-store model (the minio client, an external collaborator)

Per the spec, keys are stored without a leading `'/'` (the leading slash of a
normalized name is stripped by the client), `ListObjects` with
`Recursive: true` yields the keys under the given prefix, `StatObject`
reports whether the key exists, `RemoveObject` deletes the key and reports no
error when it is missing. -/

/-- A stored object key (no leading slash). -/
abbrev Key := List Char

/-- `ListObjects(prefix, Recursive: true)`: the stored keys with the given
prefix. -/
def listKeys (bucket : List Key) (pfx : Key) : List Key :=
  bucket.filter fun k => List.isPrefixOf pfx k

/-- `StatObject(name)` succeeding: the (slash-stripped) key is stored. -/
def mcStatExists (bucket : List Key) (name : Key) : Bool :=
  bucket.contains (trimLeadSlash name)

/-- `RemoveObject(name)`: delete the (slash-stripped) key; no error when the
key does not exist. -/
def mcRemoveObject (bucket : List Key) (name : Key) : List Key :=
  bucket.filter fun k => !(k == trimLeadSlash name)

/-! ## `S3.Count` (claim C8)

`Count` iterates a listing; each yielded `minio.ObjectInfo` may carry a
streaming error in its `Err` field.  The claim quantifies over every listing
sequence, so the loop is modelled over an arbitrary entry list. -/

/-- One entry yielded by `ListObjects`: the object info (its key) and the
optional streaming error carried in `objectInfo.Err`. -/
structure CountEntry where
  info : Key
  err : Option GoErr

/-- The body of `S3.Count`'s listing loop, with `c` the running count.
The third component instruments the run with the list of invocations
`(info, running count)` of `countFunc` that the Go code performs; the Go
code returns only `(c, err)`. -/
def countLoop (countFunc : Option (Key → Int → Bool × Option GoErr)) :
    List CountEntry → Int → Int × Option GoErr × List (Key × Int)
  | [], c => (c, none, [])
  | e :: rest, c =>
    let c := c + 1
    match countFunc with
    | some f =>
      let pe := f e.info c
      if !pe.1 then (c, none, [(e.info, c)])
      else
        match pe.2 with
        | some er => (c, some er, [(e.info, c)])
        | none =>
          match e.err with
          | some oe => (c, some oe, [(e.info, c)])
          | none =>
            let r := countLoop countFunc rest c
            (r.1, r.2.1, (e.info, c) :: r.2.2)
    | none =>
      match e.err with
      | some oe => (c, some oe, [])
      | none =>
        let r := countLoop countFunc rest c
        (r.1, r.2.1, r.2.2)

/-- Whether the loop body stops the iteration at an entry reached with
running count `n`: the callback vetoes (`proceed=false`), the callback
errors, or the entry carries a listing error. -/
def stopsAt (countFunc : Option (Key → Int → Bool × Option GoErr))
    (e : CountEntry) (n : Int) : Bool :=
  match countFunc with
  | some f =>
    let pe := f e.info n
    !pe.1 || pe.2.isSome || e.err.isSome
  | none => e.err.isSome

/-- The error `Count` reports when it stops at an entry with running count
`n`: nothing on a veto, the callback's error next, the entry's listing error
last. -/
def stopErr (countFunc : Option (Key → Int → Bool × Option GoErr))
    (e : CountEntry) (n : Int) : Option GoErr :=
  match countFunc with
  | some f =>
    let pe := f e.info n
    if !pe.1 then none
    else
      match pe.2 with
      | some er => some er
      | none => e.err
  | none => e.err

/-- The first stopping entry of a listing, starting from running count `c`:
the number of entries consumed (1-based) and the entry itself. -/
def stopInfo (countFunc : Option (Key → Int → Bool × Option GoErr)) :
    List CountEntry → Int → Option (Nat × CountEntry)
  | [], _ => none
  | e :: rest, c =>
    if stopsAt countFunc e (c + 1) then some (1, e)
    else (stopInfo countFunc rest (c + 1)).map fun pr => (pr.1 + 1, pr.2)

/-- The `(info, running count)` callback invocations for the first `k`
processed entries starting from running count `c`. -/
def callsFor : List CountEntry → Int → Nat → List (Key × Int)
  | _, _, 0 => []
  | [], _, _ + 1 => []
  | e :: rest, c, k + 1 => (e.info, c + 1) :: callsFor rest (c + 1) k

/-- `S3.Count(ctx, name, recursive=true, nil)` over the bucket model: the
name is normalized, its leading slash stripped, and the bucket listing under
that prefix is counted (model listings carry no streaming errors). -/
def s3CountModel (bucket : List Key) (name : Key) : Int :=
  (countLoop none
    ((listKeys bucket (trimLeadSlash (normalizeChars name))).map fun k => ⟨k, none⟩)
    0).1

/-! ## `S3.Exists`, `S3.IsEmptyPath`, `S3.Remove` (claims C2, C4) -/

/-- `S3.Exists`: an object path is `StatObject`ed; a directory path exists
iff the recursive count under it is positive. -/
def s3Exists (bucket : List Key) (name0 : Key) : Bool :=
  let name := normalizeChars name0
  if !nameIsADirPathChars name then mcStatExists bucket name
  else decide (0 < s3CountModel bucket name)

/-- The listing loop of `S3.IsEmptyPath`: count entries, bailing out with
`false` as soon as the count exceeds one or (with emulation) a non-stub key
appears, or (without emulation) any key appears. -/
def isEmptyLoop (emulate : Bool) : List Key → Nat → Bool
  | [], i => (i == 1 && emulate) || (i == 0 && !emulate)
  | k :: rest, i =>
    let i := i + 1
    if ((decide (1 < i) || !nameIsADirStubChars ('/' :: k)) && emulate) ||
        (decide (0 < i) && !emulate) then false
    else isEmptyLoop emulate rest i

/-- `S3.IsEmptyPath`: normalize to a directory path; with emulation a
non-existent directory is empty; otherwise scan the recursive listing. -/
def s3IsEmptyPath (emulate : Bool) (bucket : List Key) (name0 : Key) : Bool :=
  let name := nameToDirChars (normalizeChars name0)
  if emulate && !(s3Exists bucket name) then true
  else isEmptyLoop emulate (listKeys bucket (trimLeadSlash name)) 0

/-- `S3.Remove`: normalize, convert a stub to its directory; an object path
is removed via `RemoveObject` (never an error); a directory path must be
empty (else `ErrDirectoryNotEmpty`), and only its stub is removed, only when
emulation is on. -/
def s3Remove (emulate : Bool) (bucket : List Key) (name0 : Key) :
    List Key × Option GoErr :=
  let name := stubToDirChars (normalizeChars name0)
  if !nameIsADirPathChars name then (mcRemoveObject bucket name, none)
  else if !(s3IsEmptyPath emulate bucket name) then
    (bucket, some GoErr.errDirectoryNotEmpty)
  else if !emulate then (bucket, none)
  else (mcRemoveObject bucket (nameToStubChars name), none)

/-- Modelled from the spec (claim C2's words): with emulation on, a
directory is empty iff it does not exist (per `Exists`), or the recursive
listing under it contains exactly one object and that object is the stub at
this level (`d + ".dir"`).  This is the claim's reading, compared against
`s3IsEmptyPath` (the code). -/
def isEmptyPathLevelSpec (bucket : List Key) (name0 : Key) : Bool :=
  let d := nameToDirChars (normalizeChars name0)
  if !(s3Exists bucket d) then true
  else listKeys bucket (trimLeadSlash d) == [trimLeadSlash (nameToStubChars d)]

/-! ## Operation callbacks (claim C9)

`callbacks.go` keeps two process-wide optional callbacks; every public
method runs the before-callback first (aborting on error), executes, and in
a deferred block runs the after-callback, whose error is surfaced only when
the primary error is `nil`.  Contexts are modelled as opaque tokens
(`Nat`). -/

/-- The registered callbacks (`beforeOperationCB`, `afterOperationCB`). -/
structure CBEnv where
  beforeCB : Option (Nat → Nat × Option GoErr)
  afterCB : Option (Nat → Option GoErr)

/-- `invokeBeforeOperationCB`: identity on the context when unregistered. -/
def invokeBeforeCB (env : CBEnv) (ctx : Nat) : Nat × Option GoErr :=
  match env.beforeCB with
  | none => (ctx, none)
  | some cb => cb ctx

/-- `invokeAfterOperationCB`: no error when unregistered. -/
def invokeAfterCB (env : CBEnv) (ctx : Nat) : Option GoErr :=
  match env.afterCB with
  | none => none
  | some cb => cb ctx

/-- Trace events of a wrapped operation. -/
inductive OpEvent : Type where
  | evBefore
  | evPrimary
  | evAfter
deriving DecidableEq, Repr

/-- The wrapping pattern repeated in every public method (e.g.
`S3.ReadFile`): run the before-callback (aborting, without running the
operation or the after-callback, on error; its returned context replaces the
original); run the primary operation; run the after-callback in the release
path; surface the after-callback error only when the primary error is `nil`.
The third component records which steps ran. -/
def runWrapped {α : Type} (env : CBEnv) (op : Nat → α × Option GoErr) (ctx : Nat) :
    Option α × Option GoErr × List OpEvent :=
  match invokeBeforeCB env ctx with
  | (_, some e) => (none, some e, [OpEvent.evBefore])
  | (ctx', none) =>
    let r := op ctx'
    let errcb := invokeAfterCB env ctx'
    (some r.1,
      (match r.2 with
       | some e => some e
       | none => errcb),
      [OpEvent.evBefore, OpEvent.evPrimary, OpEvent.evAfter])

/-! ## Opened-files registry and `S3.openFile` (claims C5, C6, C10) -/

/-- The handle part of a registry entry (`S3OpenedFile`): staging path,
object key, and whether the underlying staging file has been attached. -/
structure S3File where
  localName : Key
  objectName : Key
  hasUnderlying : Bool
deriving DecidableEq, Repr

/-- A registry entry (`S3OpenedFilesListEntry`): admission time and handle.
Its mutex is locked exactly while the entry is in the registry. -/
structure RegEntry where
  added : Nat
  s3file : S3File
deriving DecidableEq, Repr

/-- The opened-files registry map (`S3OpenedFilesList.m`), as an association
list with unique keys. -/
abbrev Registry := List (Key × RegEntry)

/-- Go map read `m[k]`. -/
def regFind : Registry → Key → Option RegEntry
  | [], _ => none
  | (k', e) :: rest, k => if k' == k then some e else regFind rest k

/-- Go map write `m[k] = e`. -/
def regInsert : Registry → Key → RegEntry → Registry
  | [], k, e => [(k, e)]
  | (k', e') :: rest, k, e =>
    if k' == k then (k', e) :: rest else (k', e') :: regInsert rest k e

/-- Go map `delete(m, k)`. -/
def regErase : Registry → Key → Registry
  | [], _ => []
  | (k', e') :: rest, k => if k' == k then rest else (k', e') :: regErase rest k

/-- Registry / handle lifecycle events. -/
inductive OpenEvent : Type where
  | entryAddedAndLocked (k : Key)
  | entryDeletedAndUnlocked (k : Key)
  | handleClosed (k : Key)
deriving DecidableEq, Repr

/-- `S3OpenedFilesList.DeleteAndUnlockEntry`: look the staging path up; when
present, delete the binding and unlock the entry's mutex; when absent, do
nothing.  The event list records the unlock. -/
def deleteAndUnlockEntry (reg : Registry) (k : Key) : Registry × List OpenEvent :=
  match regFind reg k with
  | none => (reg, [])
  | some _ => (regErase reg k, [OpenEvent.entryDeletedAndUnlocked k])

/-- `strings.ReplaceAll(name, "/", "__")`. -/
def replSlashUnderscores (cs : List Char) : List Char :=
  cs.flatMap fun c => if c = '/' then ['_', '_'] else [c]

/-- `filepath.Join`: drop empty elements, join with `'/'`, `Clean`. -/
def goPathJoin (parts : List Key) : Key :=
  match parts.filter (fun p => !(p == [])) with
  | [] => []
  | ps => pathCleanChars (joinSegs ps)

/-- `S3.TempFileName`: `Join(openedFilesTempDir, TempDir, name with '/' →
'__')`. -/
def tempFileName (tempDir : Key) (name : Key) : Key :=
  goPathJoin [tempDir, ['t', 'm', 'p'], replSlashUnderscores name]

/-- The outcome of `S3.openFile`: returned handle, returned error, final
registry, and the registry/handle events that occurred. -/
structure OpenResult where
  file : Option S3File
  err : Option GoErr
  reg : Registry
  events : List OpenEvent
deriving DecidableEq, Repr

/-- `S3.openFile` over the registry model.  External effects are resolved by
oracles: `makePathOk` (staging-parent creation), `getOk` (object fetch),
`copyOk` (staging-file creation and copy), `reopenOk` (reopening the staging
file in the requested mode).  Callbacks are taken as unregistered (claim C9
models them separately).  Stepwise: mode check; normalize and reject
directories; staging-path lookup with `ErrFileAlreadyOpened` on a hit; admit
and lock a fresh entry; fetch-and-stage unless creating; reopen; on any
failure after admission the deferred cleanup deletes and unlocks the entry
and closes the (non-nil) partially prepared handle. -/
def openFileM (reg : Registry) (tempDir : Key) (now : Nat) (name0 : Key)
    (fileMode : Nat) (makePathOk getOk copyOk reopenOk : Bool) : OpenResult :=
  if 2 < fileMode then ⟨none, some GoErr.errUnknownFileMode, reg, []⟩
  else
    let name := normalizeChars name0
    if nameIsADirChars name then ⟨none, some GoErr.errCantOpenS3Directory, reg, []⟩
    else
      let localFileName := tempFileName tempDir name
      match regFind reg localFileName with
      | some entry => ⟨some entry.s3file, some GoErr.errFileAlreadyOpened, reg, []⟩
      | none =>
        if !makePathOk then ⟨none, some GoErr.errMakePath, reg, []⟩
        else
          let entry : RegEntry := ⟨now, ⟨localFileName, name, false⟩⟩
          let reg1 := regInsert reg localFileName entry
          let ev1 := [OpenEvent.entryAddedAndLocked localFileName]
          if fileMode ≠ 1 ∧ (!getOk || !copyOk) then
            -- GetObject / staging create+copy failed: the named return f is
            -- still nil, so the deferred cleanup only deletes and unlocks
            let cl := deleteAndUnlockEntry reg1 localFileName
            ⟨none, some (if !getOk then GoErr.errGetObject else GoErr.errCopy),
              cl.1, ev1 ++ cl.2⟩
          else
            if !reopenOk then
              -- the reopen failed: the function still returns the handle
              -- (with a broken underlying file) alongside the error, and the
              -- deferred cleanup deletes, unlocks and closes it
              let cl := deleteAndUnlockEntry reg1 localFileName
              ⟨some ⟨localFileName, name, false⟩, some GoErr.errReopen, cl.1,
                ev1 ++ cl.2 ++ [OpenEvent.handleClosed localFileName]⟩
            else
              let file : S3File := ⟨localFileName, name, true⟩
              ⟨some file, none, regInsert reg localFileName ⟨now, file⟩, ev1⟩

/-! ## The empty-subtree cleaner (claims C1, C7)

The cleaner works against any `FileSystem` through `ReadDir` / `Stat` /
`IsEmptyPath` / `Remove` / `Join`.  The filesystem state is modelled as a
finite tree of named entries; paths are segment lists (`Join` appends a
segment).  The primitive semantics follow the local backend: `ReadDir`
lists a directory (error on a file or a missing path), `Stat` reports
is-dir (error when missing), `IsEmptyPath` holds for a directory with no
entries (error otherwise), `Remove` deletes a file or an empty directory
(error on a non-empty directory, a missing path, or the root). -/

/-- A filesystem subtree: a file, or a directory with named children. -/
inductive FTree : Type where
  | file : FTree
  | dir (children : List (String × FTree)) : FTree

/-- Paths as segment lists; `FS.Join(p, name)` is `p ++ [name]`. -/
abbrev TPath := List String

/-- Whether a node is a directory. -/
def FTree.isDirB : FTree → Bool
  | .file => false
  | .dir _ => true

mutual

/-- Number of nodes, used as a fuel bound. -/
def FTree.size : FTree → Nat
  | .file => 1
  | .dir cs => 1 + sizeEntries cs

/-- Total size of an entry list. -/
def sizeEntries : List (String × FTree) → Nat
  | [] => 0
  | e :: rest => e.2.size + sizeEntries rest

end

/-- No duplicate names in a list (real directories have unique entry
names). -/
def namesNodup : List String → Bool
  | [] => true
  | n :: rest => !(rest.contains n) && namesNodup rest

mutual

/-- Well-formed state: every directory has distinct child names. -/
def FTree.wfB : FTree → Bool
  | .file => true
  | .dir cs => namesNodup (cs.map Prod.fst) && wfEntries cs

/-- Well-formedness of an entry list. -/
def wfEntries : List (String × FTree) → Bool
  | [] => true
  | e :: rest => e.2.wfB && wfEntries rest

end

/-- First entry with the given name. -/
def findEntry : List (String × FTree) → String → Option FTree
  | [], _ => none
  | e :: rest, n => if e.1 == n then some e.2 else findEntry rest n

/-- The subtree at a path. -/
def treeLookup : FTree → TPath → Option FTree
  | t, [] => some t
  | .file, _ :: _ => none
  | .dir cs, n :: p =>
    match findEntry cs n with
    | some c => treeLookup c p
    | none => none

/-- Apply `f` to the first entry named `n`: delete the entry when `f`
returns `none`, replace its subtree otherwise. -/
def updateEntriesF (n : String) (f : FTree → Option FTree) :
    List (String × FTree) → List (String × FTree)
  | [] => []
  | e :: rest =>
    if e.1 == n then
      match f e.2 with
      | none => rest
      | some t' => (e.1, t') :: rest
    else e :: updateEntriesF n f rest

/-- Replace (`some`) or delete (`none`) the node at a (nonempty) path,
following the first matching entry at each level. -/
def updateAt : FTree → TPath → Option FTree → FTree
  | t, [], o => o.getD t
  | .file, _ :: _, _ => .file
  | .dir cs, n :: p, o =>
    .dir (updateEntriesF n
      (fun c =>
        match p, o with
        | [], none => none
        | _, _ => some (updateAt c p o)) cs)

/-- `FS.ReadDir`: the entries of a directory with their is-dir flags;
errors (`none`) on a missing path or a file. -/
def readDirM (σ : FTree) (p : TPath) : Option (List (String × Bool)) :=
  match treeLookup σ p with
  | some (.dir cs) => some (cs.map fun e => (e.1, e.2.isDirB))
  | _ => none

/-- `IsDir` via `FS.Stat`: errors (`none`) on a missing path. -/
def isDirM (σ : FTree) (p : TPath) : Option Bool :=
  (treeLookup σ p).map FTree.isDirB

/-- `FS.IsEmptyPath`: a directory with no entries; errors otherwise. -/
def isEmptyM (σ : FTree) (p : TPath) : Option Bool :=
  match treeLookup σ p with
  | some (.dir cs) => some cs.isEmpty
  | _ => none

/-- `FS.Remove` (`os.Remove`): delete a file or an empty directory; errors
on a non-empty directory, a missing path, or the root. -/
def removeM (σ : FTree) (p : TPath) : Option FTree :=
  match p with
  | [] => none
  | _ :: _ =>
    match treeLookup σ p with
    | some .file => some (updateAt σ p none)
    | some (.dir cs) => if cs.isEmpty then some (updateAt σ p none) else none
    | none => none

/-- Outcome of a cleaner run: final state, the paths of the directories that
were removed (instrumentation; the Go code does not record them), the final
`esc.Count`, and the error. -/
structure CleanResult where
  tree : FTree
  removed : List TPath
  count : Nat
  err : Option GoErr

/-- The item loop of `EmptySubtreeCleaner.dfs`, parameterized by the
recursive call into subdirectories. -/
def dfsItems (rec : FTree → TPath → CleanResult) :
    FTree → TPath → List (String × Bool) → CleanResult
  | σ, _, [] => ⟨σ, [], 0, none⟩
  | σ, p, item :: rest =>
    match isDirM σ (p ++ [item.1]) with
    | none => ⟨σ, [], 0, some GoErr.errStat⟩
    | some false => dfsItems rec σ p rest
    | some true =>
      let r := rec σ (p ++ [item.1])
      match r.err with
      | some _ => r
      | none =>
        let r2 := dfsItems rec r.tree p rest
        ⟨r2.tree, r.removed ++ r2.removed, r.count + r2.count, r2.err⟩

/-- `EmptySubtreeCleaner.dfs`: read the directory, recurse into the
subdirectories in order (re-statting each item live), then test emptiness
and delete.  `esc.Count` is incremented before the `Remove` call.  The fuel
only bounds the recursion depth (`errFuel` is never reached with fuel above
the tree size). -/
def dfsGo : Nat → FTree → TPath → CleanResult
  | 0, σ, _ => ⟨σ, [], 0, some GoErr.errFuel⟩
  | fuel + 1, σ, p =>
    match readDirM σ p with
    | none => ⟨σ, [], 0, some GoErr.errReadDir⟩
    | some contents =>
      let r := dfsItems (dfsGo fuel) σ p contents
      match r.err with
      | some _ => r
      | none =>
        match isEmptyM r.tree p with
        | none => ⟨r.tree, r.removed, r.count, some GoErr.errStat⟩
        | some false => ⟨r.tree, r.removed, r.count, none⟩
        | some true =>
          match removeM r.tree p with
          | none => ⟨r.tree, r.removed, r.count + 1, some GoErr.errRemove⟩
          | some σ' => ⟨σ', r.removed ++ [p], r.count + 1, none⟩

/-- The node-children snapshot built by `EmptySubtreeCleaner.bfs`: for every
expanded directory path, the paths of all its children. -/
abbrev SnapMap := List (TPath × List TPath)

/-- First binding of a path in the snapshot. -/
def mapFindSnap : SnapMap → TPath → Option (List TPath)
  | [], _ => none
  | (q, ch) :: rest, p => if q == p then some ch else mapFindSnap rest p

/-- The queue loop of `EmptySubtreeCleaner.bfs`: dequeue a node path; skip it
if it is not a directory (`IsDir` errors abort); read it, record all child
paths as its children, and enqueue the subdirectory children.  The fuel
bounds the number of dequeue steps. -/
def bfsLoop (σ : FTree) : Nat → List TPath → SnapMap → Option SnapMap
  | 0, _, _ => none
  | _ + 1, [], m => some m
  | fuel + 1, q :: rest, m =>
    match isDirM σ q with
    | none => none
    | some false => bfsLoop σ fuel rest m
    | some true =>
      match readDirM σ q with
      | none => none
      | some contents =>
        bfsLoop σ fuel
          (rest ++ (contents.filter fun e => e.2).map fun e => q ++ [e.1])
          (m ++ [(q, contents.map fun e => q ++ [e.1])])

/-- `EmptySubtreeCleaner.bfs`: fail fast when `ReadDir(basePath)` fails, then
run the queue loop from the root node. -/
def bfsBuild (σ : FTree) (p : TPath) (fuel : Nat) : Option SnapMap :=
  match readDirM σ p with
  | none => none
  | some _ => bfsLoop σ fuel [p] []

/-- The child loop of `recursiveEmptyDelete`, parameterized by the
recursive call. -/
def recDeleteList (rec : FTree → TPath → CleanResult) :
    FTree → List TPath → CleanResult
  | σ, [] => ⟨σ, [], 0, none⟩
  | σ, q :: rest =>
    let r := rec σ q
    match r.err with
    | some _ => r
    | none =>
      let r2 := recDeleteList rec r.tree rest
      ⟨r2.tree, r.removed ++ r2.removed, r.count + r2.count, r2.err⟩

/-- `EmptySubtreeCleaner.recursiveEmptyDelete` over the snapshot: post-order
over the snapshot children (a path absent from the snapshot is a leaf node),
then the live `IsDir` / `IsEmptyPath` checks and the removal, with
`esc.Count` incremented before the `Remove` call. -/
def recDelete (m : SnapMap) : Nat → FTree → TPath → CleanResult
  | 0, σ, _ => ⟨σ, [], 0, some GoErr.errFuel⟩
  | fuel + 1, σ, p =>
    let r := recDeleteList (recDelete m fuel) σ ((mapFindSnap m p).getD [])
    match r.err with
    | some _ => r
    | none =>
      match isDirM r.tree p with
      | none => ⟨r.tree, r.removed, r.count, some GoErr.errStat⟩
      | some false => ⟨r.tree, r.removed, r.count, none⟩
      | some true =>
        match isEmptyM r.tree p with
        | none => ⟨r.tree, r.removed, r.count, some GoErr.errStat⟩
        | some false => ⟨r.tree, r.removed, r.count, none⟩
        | some true =>
          match removeM r.tree p with
          | none => ⟨r.tree, r.removed, r.count + 1, some GoErr.errRemove⟩
          | some σ' => ⟨σ', r.removed ++ [p], r.count + 1, none⟩

/-- `RemoveEmptyDirs`: default an unknown algorithm name to DFS; BFS builds
the snapshot then deletes bottom-up, DFS deletes inline.  The second
component is the `int` the Go function returns: in
`return esc.Count, esc.dfs(...)` the compiler evaluates the call before the
return's operands are read (the order of the plain operand relative to the
call is unspecified by the language, and gc hoists the call), so the
returned value is `esc.Count` as it stands after the traversal — and the
literal `0` when the BFS tree build fails. -/
def removeEmptyDirsModel (algo : String) (σ : FTree) (p : TPath) (fuel : Nat) :
    CleanResult × Int :=
  let algo := if algo ≠ "DFS" ∧ algo ≠ "BFS" then "DFS" else algo
  if algo = "BFS" then
    match bfsBuild σ p fuel with
    | none => (⟨σ, [], 0, some GoErr.errReadDir⟩, 0)
    | some m =>
      let r := recDelete m fuel σ p
      (r, Int.ofNat r.count)
  else
    let r := dfsGo fuel σ p
    (r, Int.ofNat r.count)

mutual

/-- The common mathematical content of both strategies: clean a subtree
bottom-up, returning the cleaned subtree (`none` when the subtree's root
itself was removed), the removed paths (relative; `[]` is the root), and the
number of `Count` increments. -/
def structClean : FTree → Option FTree × List TPath × Nat
  | .file => (some .file, [], 0)
  | .dir cs =>
    let r := structCleanList cs
    if r.1.isEmpty then (none, r.2.1 ++ [[]], r.2.2 + 1)
    else (some (.dir r.1), r.2.1, r.2.2)

/-- `structClean` over an entry list. -/
def structCleanList : List (String × FTree) → List (String × FTree) × List TPath × Nat
  | [] => ([], [], 0)
  | e :: rest =>
    let rc := structClean e.2
    let rr := structCleanList rest
    ((match rc.1 with
      | some c' => [(e.1, c')]
      | none => []) ++ rr.1,
      rc.2.1.map (fun q => e.1 :: q) ++ rr.2.1,
      rc.2.2 + rr.2.2)

end

/-- What a cleaner run does on any state, expressed through `structClean`:
on a directory base, clean it bottom-up and write the result back (removing
the base itself when it became empty — except that removing the global root
fails, in `errRemove`, after its children were already removed and counted);
on a file or missing base, fail with the `ReadDir` error and do nothing. -/
def specOutcome (σ : FTree) (p : TPath) : CleanResult :=
  match treeLookup σ p with
  | some (.dir cs) =>
    let r := structClean (.dir cs)
    match r.1 with
    | some t' => ⟨updateAt σ p (some t'), r.2.1.map (fun q => p ++ q), r.2.2, none⟩
    | none =>
      if p = [] then
        ⟨FTree.dir [], (r.2.1.dropLast).map (fun q => p ++ q), r.2.2,
          some GoErr.errRemove⟩
      else ⟨updateAt σ p none, r.2.1.map (fun q => p ++ q), r.2.2, none⟩
  | _ => ⟨σ, [], 0, some GoErr.errReadDir⟩

mutual

/-- Number of directory nodes in a subtree: the number of queue dequeue
steps `bfs` spends on it. -/
def dirCount : FTree → Nat
  | .file => 0
  | .dir cs => 1 + dirCountEntries cs

/-- `dirCount` summed over an entry list. -/
def dirCountEntries : List (String × FTree) → Nat
  | [] => 0
  | e :: rest => dirCount e.2 + dirCountEntries rest

end

mutual

/-- The snapshot `bfs` computes for the subtree `t` at path `p`, in
depth-first order: one binding per directory node, mapping its path to the
paths of all its children.  (The queue produces the same bindings in
breadth-first order; the keys are distinct, so the association map is the
same.) -/
def snapEntries : TPath → FTree → SnapMap
  | _, .file => []
  | p, .dir cs => (p, cs.map fun e => p ++ [e.1]) :: snapEntriesList p cs

/-- `snapEntries` over an entry list. -/
def snapEntriesList : TPath → List (String × FTree) → SnapMap
  | _, [] => []
  | p, e :: rest => snapEntries (p ++ [e.1]) e.2 ++ snapEntriesList p rest

end

mutual

/-- The snapshot `m` describes the subtree `t` at path `p`: every directory
node is bound to its children's paths, every file node is unbound. -/
def Agree (m : SnapMap) : TPath → FTree → Prop
  | p, .file => mapFindSnap m p = none
  | p, .dir cs =>
    mapFindSnap m p = some (cs.map fun e => p ++ [e.1]) ∧ AgreeList m p cs

/-- `Agree` over an entry list. -/
def AgreeList (m : SnapMap) : TPath → List (String × FTree) → Prop
  | _, [] => True
  | p, e :: rest => Agree m (p ++ [e.1]) e.2 ∧ AgreeList m p rest

end

/-! ## Lemmas about the path utilities (towards claim C3) -/

theorem splitSeg_ne_nil (cs : List Char) : splitSeg cs ≠ [] := by
  cases cs with
  | nil => simp [splitSeg]
  | cons c cs =>
    simp only [splitSeg]
    split
    · simp
    · split <;> simp

theorem no_slash_of_mem_splitSeg {cs : List Char} {s : List Char}
    (hs : s ∈ splitSeg cs) : '/' ∉ s := by
  induction cs generalizing s with
  | nil => simp [splitSeg] at hs; simp [hs]
  | cons c cs ih =>
    by_cases hc : c = '/'
    · rw [splitSeg, if_pos hc] at hs
      rcases List.mem_cons.mp hs with h | h
      · simp [h]
      · exact ih h
    · rcases hemp : splitSeg cs with _ | ⟨t, rest⟩
      · exact absurd hemp (splitSeg_ne_nil cs)
      · rw [splitSeg, if_neg hc, hemp] at hs
        rcases List.mem_cons.mp hs with h | h
        · subst h
          intro hmem
          rcases List.mem_cons.mp hmem with h' | h'
          · exact hc h'.symm
          · exact ih (hemp ▸ List.mem_cons_self t rest) h'
        · exact ih (hemp ▸ List.mem_cons_of_mem t h)

theorem mem_of_mem_splitSeg {cs s : List Char} {c : Char}
    (hs : s ∈ splitSeg cs) (hc : c ∈ s) : c ∈ cs := by
  induction cs generalizing s with
  | nil => simp [splitSeg] at hs; subst hs; simp at hc
  | cons a cs ih =>
    by_cases ha : a = '/'
    · rw [splitSeg, if_pos ha] at hs
      rcases List.mem_cons.mp hs with h | h
      · subst h; simp at hc
      · exact List.mem_cons_of_mem a (ih h hc)
    · rcases hemp : splitSeg cs with _ | ⟨t, rest⟩
      · exact absurd hemp (splitSeg_ne_nil cs)
      · rw [splitSeg, if_neg ha, hemp] at hs
        rcases List.mem_cons.mp hs with h | h
        · subst h
          rcases List.mem_cons.mp hc with h' | h'
          · simp [h']
          · exact List.mem_cons_of_mem a
              (ih (hemp ▸ List.mem_cons_self t rest) h')
        · exact List.mem_cons_of_mem a (ih (hemp ▸ List.mem_cons_of_mem t h) hc)

theorem splitSeg_append_slash_cons {s : List Char} (h : '/' ∉ s) (cs : List Char) :
    splitSeg (s ++ '/' :: cs) = s :: splitSeg cs := by
  induction s with
  | nil => simp [splitSeg]
  | cons c s ih =>
    have hc : c ≠ '/' := fun hc => h (hc ▸ List.mem_cons_self c s)
    have hs : '/' ∉ s := fun hmem => h (List.mem_cons_of_mem c hmem)
    rw [List.cons_append, splitSeg, if_neg hc, ih hs]

theorem splitSeg_of_no_slash {s : List Char} (h : '/' ∉ s) : splitSeg s = [s] := by
  induction s with
  | nil => simp [splitSeg]
  | cons c s ih =>
    have hc : c ≠ '/' := fun hc => h (hc ▸ List.mem_cons_self c s)
    have hs : '/' ∉ s := fun hmem => h (List.mem_cons_of_mem c hmem)
    simp only [splitSeg, if_neg hc, ih hs]

theorem splitSeg_joinSegs {S : List (List Char)} (hne : S ≠ [])
    (h : ∀ s ∈ S, '/' ∉ s) : splitSeg (joinSegs S) = S := by
  induction S with
  | nil => exact absurd rfl hne
  | cons s S ih =>
    cases S with
    | nil => simpa [joinSegs] using splitSeg_of_no_slash (h s (List.mem_cons_self s []))
    | cons t T =>
      have hs : '/' ∉ s := h s (List.mem_cons_self s _)
      simp only [joinSegs, splitSeg_append_slash_cons hs]
      rw [ih (by simp) (fun u hu => h u (List.mem_cons_of_mem s hu))]

theorem splitSeg_append_slash (cs : List Char) :
    splitSeg (cs ++ ['/']) = splitSeg cs ++ [[]] := by
  induction cs with
  | nil => simp [splitSeg]
  | cons c cs ih =>
    by_cases hc : c = '/'
    · simp [splitSeg, hc, ih]
    · rcases hemp : splitSeg cs with _ | ⟨t, rest⟩
      · exact absurd hemp (splitSeg_ne_nil cs)
      · rw [List.cons_append, splitSeg, if_neg hc, ih, hemp]
        rw [splitSeg, if_neg hc, hemp]
        rfl

theorem cleanSegsAux_no_dotdot {segs : List (List Char)}
    (h : ['.', '.'] ∉ segs) (rooted : Bool) (acc : List (List Char)) :
    cleanSegsAux rooted acc segs = acc.reverse ++ segs.filter keepSeg := by
  induction segs generalizing acc with
  | nil => simp [cleanSegsAux]
  | cons s segs ih =>
    have hs : s ≠ ['.', '.'] := fun hs => h (hs ▸ List.mem_cons_self s segs)
    have hrest : ['.', '.'] ∉ segs := fun hmem => h (List.mem_cons_of_mem s hmem)
    by_cases hdrop : s = [] ∨ s = ['.']
    · have hk : keepSeg s = false := by
        rcases hdrop with h' | h' <;> simp [keepSeg, h']
      simp only [cleanSegsAux, if_pos hdrop, ih hrest]
      simp [List.filter_cons, hk]
    · have hk : keepSeg s = true := by
        push_neg at hdrop
        simp [keepSeg, hdrop.1, hdrop.2]
      simp only [cleanSegsAux, if_neg hdrop, if_neg hs, ih hrest]
      simp [List.filter_cons, hk]

theorem mem_joinSegs {S : List (List Char)} {c : Char} (h : c ∈ joinSegs S) :
    c = '/' ∨ ∃ s ∈ S, c ∈ s := by
  induction S with
  | nil => simp [joinSegs] at h
  | cons s S ih =>
    cases S with
    | nil => exact Or.inr ⟨s, List.mem_cons_self s [], by simpa [joinSegs] using h⟩
    | cons t T =>
      simp only [joinSegs, List.mem_append, List.mem_cons] at h
      rcases h with h | h | h
      · exact Or.inr ⟨s, List.mem_cons_self s _, h⟩
      · exact Or.inl h
      · rcases ih h with h' | ⟨u, hu, hcu⟩
        · exact Or.inl h'
        · exact Or.inr ⟨u, List.mem_cons_of_mem s hu, hcu⟩

theorem joinSegs_ne_nil {S : List (List Char)} (hne : S ≠ [])
    (h : ∀ s ∈ S, s ≠ []) : joinSegs S ≠ [] := by
  cases S with
  | nil => exact absurd rfl hne
  | cons s S =>
    cases S with
    | nil => simpa [joinSegs] using h s (List.mem_cons_self s [])
    | cons t T =>
      simp only [joinSegs]
      intro hcontr
      rcases List.append_eq_nil.mp hcontr with ⟨_, h2⟩
      simp at h2

theorem keepSeg_of_goodSeg {s : List Char} (h : GoodSeg s) : keepSeg s = true := by
  simp [keepSeg, h.1, h.2.1]

theorem goodSeg_of_filter {q : List Char} (h1 : '\\' ∉ q)
    (h2 : ['.', '.'] ∉ splitSeg q) {s : List Char}
    (hs : s ∈ (splitSeg q).filter keepSeg) : GoodSeg s := by
  have hmem : s ∈ splitSeg q := List.mem_of_mem_filter hs
  have hkeep : keepSeg s = true := List.of_mem_filter hs
  have hne : s ≠ [] ∧ s ≠ ['.'] := by
    constructor <;> intro hcontr <;> simp [keepSeg, hcontr] at hkeep
  refine ⟨hne.1, hne.2, fun hcontr => h2 (hcontr ▸ hmem), no_slash_of_mem_splitSeg hmem,
    fun hcontr => h1 (mem_of_mem_splitSeg hmem hcontr)⟩

theorem no_backslash_joinSegs {S : List (List Char)} (h : ∀ s ∈ S, GoodSeg s) :
    '\\' ∉ joinSegs S := by
  intro hcontr
  rcases mem_joinSegs hcontr with h' | ⟨s, hsS, hsc⟩
  · exact absurd h' (by decide)
  · exact (h s hsS).2.2.2.2 hsc

theorem mem_of_getLast?_eq_some {l : List Char} {a : Char} (h : l.getLast? = some a) :
    a ∈ l := by
  have hne : l ≠ [] := by rintro rfl; simp at h
  rw [List.getLast?_eq_getLast l hne] at h
  exact (Option.some.inj h) ▸ List.getLast_mem hne

theorem getLast?_joinSegs_ne_slash {S : List (List Char)} (hne : S ≠ [])
    (h : ∀ s ∈ S, GoodSeg s) : (joinSegs S).getLast? ≠ some '/' := by
  induction S with
  | nil => exact absurd rfl hne
  | cons s S ih =>
    cases S with
    | nil =>
      intro hcontr
      exact (h s (List.mem_cons_self s [])).2.2.2.1
        (mem_of_getLast?_eq_some (by simpa [joinSegs] using hcontr))
    | cons t T =>
      have hmem : ∀ u ∈ t :: T, GoodSeg u := fun u hu => h u (List.mem_cons_of_mem s hu)
      have hJ : joinSegs (t :: T) ≠ [] :=
        joinSegs_ne_nil (by simp) (fun u hu => (hmem u hu).1)
      obtain ⟨c, hc⟩ : ∃ c, (joinSegs (t :: T)).getLast? = some c := by
        rw [List.getLast?_eq_getLast _ hJ]; exact ⟨_, rfl⟩
      intro hcontr
      apply ih (by simp) hmem
      rw [show joinSegs (s :: t :: T) = s ++ '/' :: joinSegs (t :: T) from rfl,
        List.getLast?_append,
        show ('/' :: joinSegs (t :: T)) = ['/'] ++ joinSegs (t :: T) from rfl,
        List.getLast?_append, hc] at hcontr
      simp only [Option.or] at hcontr
      rw [hc, hcontr]

theorem head?_joinSegs_ne_slash {S : List (List Char)} (hne : S ≠ [])
    (h : ∀ s ∈ S, GoodSeg s) : (joinSegs S).head? ≠ some '/' := by
  rcases S with _ | ⟨s, S⟩
  · exact absurd rfl hne
  · have hgs := h s (List.mem_cons_self s S)
    rcases s with _ | ⟨c, s'⟩
    · exact absurd rfl hgs.1
    · have hc : c ≠ '/' := fun hc => hgs.2.2.2.1 (hc ▸ List.mem_cons_self c s')
      cases S with
      | nil => simpa [joinSegs] using hc
      | cons t T => simpa [joinSegs] using hc

theorem rootedJoin_ne_nil (S : List (List Char)) : rootedJoin S ≠ [] := by
  simp [rootedJoin]

theorem rootedJoin_eq_root_iff (S : List (List Char)) :
    rootedJoin S = ['/'] ↔ joinSegs S = [] := by
  simp [rootedJoin]

theorem stripDrive_of_head_slash {cs : List Char} (h : cs.head? = some '/') :
    stripDriveChars cs = cs := by
  rcases cs with _ | ⟨c0, cs⟩
  · rfl
  · rcases cs with _ | ⟨c1, cs⟩
    · rfl
    · have hc0 : c0 = '/' := by simp at h; exact h
      simp [stripDriveChars, hc0, isDriveLetterChar]

theorem mem_of_mem_stripDrive {cs : List Char} {c : Char}
    (h : c ∈ stripDriveChars cs) : c ∈ cs := by
  rcases cs with _ | ⟨c0, cs⟩
  · exact h
  · rcases cs with _ | ⟨c1, cs⟩
    · simpa [stripDriveChars] using h
    · simp only [stripDriveChars] at h
      split at h
      · exact List.mem_cons_of_mem c0 (List.mem_cons_of_mem c1 h)
      · exact h

theorem replBackslash_eq_self {cs : List Char} (h : '\\' ∉ cs) :
    replBackslash cs = cs := by
  induction cs with
  | nil => rfl
  | cons c cs ih =>
    have hc : c ≠ '\\' := fun hc => h (hc ▸ List.mem_cons_self c cs)
    have hcs : '\\' ∉ cs := fun hmem => h (List.mem_cons_of_mem c hmem)
    simp only [replBackslash, List.map_cons, if_neg hc, List.cons.injEq, true_and]
    exact ih hcs

theorem no_backslash_rootedJoin {S : List (List Char)} (hS : ∀ s ∈ S, GoodSeg s) :
    '\\' ∉ rootedJoin S := by
  intro hcontr
  rcases List.mem_cons.mp hcontr with h | h
  · exact absurd h (by decide)
  · exact no_backslash_joinSegs hS h

theorem splitSeg_rootedJoin {S : List (List Char)} (hne : S ≠ [])
    (hS : ∀ s ∈ S, GoodSeg s) : splitSeg (rootedJoin S) = [] :: S := by
  rw [show rootedJoin S = '/' :: joinSegs S from rfl, splitSeg, if_pos rfl,
    splitSeg_joinSegs hne (fun s hs => (hS s hs).2.2.2.1)]

theorem not_dotdot_mem_cons_good {S : List (List Char)} (hS : ∀ s ∈ S, GoodSeg s) :
    ['.', '.'] ∉ ([] : List Char) :: S := by
  intro hcontr
  rcases List.mem_cons.mp hcontr with h | h
  · simp at h
  · exact (hS _ h).2.2.1 rfl

theorem filter_keepSeg_cons_nil {S : List (List Char)} (hS : ∀ s ∈ S, GoodSeg s) :
    List.filter keepSeg (([] : List Char) :: S) = S := by
  rw [List.filter_cons]
  simp only [show keepSeg ([] : List Char) = false from rfl, Bool.false_eq_true,
    if_false]
  exact List.filter_eq_self.mpr (fun s hs => keepSeg_of_goodSeg (hS s hs))

theorem pathCleanChars_rooted_ne_nil {cs : List Char}
    (hrooted : (cs.head? == some '/') = true)
    (hne : cleanSegsAux true [] (splitSeg cs) ≠ []) :
    pathCleanChars cs = '/' :: joinSegs (cleanSegsAux true [] (splitSeg cs)) := by
  simp only [pathCleanChars, hrooted]
  rcases hS : cleanSegsAux true [] (splitSeg cs) with _ | ⟨s, S⟩
  · exact absurd hS hne
  · simp [hS]

theorem pathCleanChars_rooted_nil {cs : List Char}
    (hrooted : (cs.head? == some '/') = true)
    (hnil : cleanSegsAux true [] (splitSeg cs) = []) :
    pathCleanChars cs = ['/'] := by
  simp [pathCleanChars, hrooted, hnil]

theorem pathCleanChars_unrooted_ne_nil {cs : List Char}
    (hrooted : (cs.head? == some '/') = false)
    (hne : cleanSegsAux false [] (splitSeg cs) ≠ []) :
    pathCleanChars cs = joinSegs (cleanSegsAux false [] (splitSeg cs)) := by
  simp only [pathCleanChars, hrooted]
  rcases hS : cleanSegsAux false [] (splitSeg cs) with _ | ⟨s, S⟩
  · exact absurd hS hne
  · simp [hS]

theorem pathCleanChars_unrooted_nil {cs : List Char}
    (hrooted : (cs.head? == some '/') = false)
    (hnil : cleanSegsAux false [] (splitSeg cs) = []) :
    pathCleanChars cs = ['.'] := by
  simp [pathCleanChars, hrooted, hnil]

theorem cleanSegsAux_nil_acc {segs : List (List Char)}
    (h : ['.', '.'] ∉ segs) (rooted : Bool) :
    cleanSegsAux rooted [] segs = segs.filter keepSeg := by
  rw [cleanSegsAux_no_dotdot h]
  simp

theorem pathClean_rootedJoin {S : List (List Char)} (hne : S ≠ [])
    (hS : ∀ s ∈ S, GoodSeg s) : pathCleanChars (rootedJoin S) = rootedJoin S := by
  have hclean : cleanSegsAux true [] (splitSeg (rootedJoin S)) = S := by
    rw [splitSeg_rootedJoin hne hS, cleanSegsAux_nil_acc (not_dotdot_mem_cons_good hS),
      filter_keepSeg_cons_nil hS]
  have hrooted : ((rootedJoin S).head? == some '/') = true := by
    simp [rootedJoin]
  rw [pathCleanChars_rooted_ne_nil hrooted (by rw [hclean]; exact hne), hclean]
  rfl

theorem pathClean_rootedJoin_slash {S : List (List Char)} (hne : S ≠ [])
    (hS : ∀ s ∈ S, GoodSeg s) :
    pathCleanChars (rootedJoin S ++ ['/']) = rootedJoin S := by
  have hsplit : splitSeg (rootedJoin S ++ ['/']) = (([] : List Char) :: S) ++ [[]] := by
    rw [splitSeg_append_slash, splitSeg_rootedJoin hne hS]
  have hnodd : ['.', '.'] ∉ (([] : List Char) :: S) ++ [[]] := by
    intro hcontr
    rcases List.mem_append.mp hcontr with h | h
    · exact not_dotdot_mem_cons_good hS h
    · simp at h
  have hclean : cleanSegsAux true [] (splitSeg (rootedJoin S ++ ['/'])) = S := by
    rw [hsplit, cleanSegsAux_nil_acc hnodd, List.filter_append, filter_keepSeg_cons_nil hS]
    simp [keepSeg]
  have hrooted : ((rootedJoin S ++ ['/']).head? == some '/') = true := by
    simp [rootedJoin]
  rw [pathCleanChars_rooted_ne_nil hrooted (by rw [hclean]; exact hne), hclean]
  rfl

theorem ensureLeadSlash_rootedJoin (S : List (List Char)) :
    ensureLeadSlash (rootedJoin S) = rootedJoin S := by
  simp [ensureLeadSlash, rootedJoin]

theorem lastIsSlash_rootedJoin {S : List (List Char)} (hne : S ≠ [])
    (hS : ∀ s ∈ S, GoodSeg s) : lastIsSlash (rootedJoin S) = false := by
  have hJ : joinSegs S ≠ [] := joinSegs_ne_nil hne (fun s hs => (hS s hs).1)
  have hlast : (rootedJoin S).getLast? = (joinSegs S).getLast? := by
    rw [show rootedJoin S = ['/'] ++ joinSegs S from rfl, List.getLast?_append,
      List.getLast?_eq_getLast _ hJ]
    rfl
  simp only [lastIsSlash, hlast]
  simpa using getLast?_joinSegs_ne_slash hne hS

/-- Any `mkForm` (a possible output of `normalizeName`) built from good
segments is a fixed point of `normalizeName`. -/
theorem normalizeChars_steps {p : List Char} (h0 : p ≠ []) :
    normalizeChars p =
      restoreDirSlash (lastIsSlash p)
        (ensureLeadSlash (replBackslash (pathCleanChars (stripDriveChars p)))) := by
  simp only [normalizeChars, if_neg h0]

theorem normalizeChars_mkForm {S : List (List Char)} (hS : ∀ s ∈ S, GoodSeg s)
    (b : Bool) : normalizeChars (mkForm S b) = mkForm S b := by
  by_cases hne : S = []
  · subst hne
    have h1 : mkForm [] b = ['/'] := by
      simp [mkForm, restoreDirSlash, rootedJoin, joinSegs]
    rw [h1]
    decide
  · have hJ : joinSegs S ≠ [] := joinSegs_ne_nil hne (fun s hs => (hS s hs).1)
    have hroot : rootedJoin S ≠ ['/'] := fun hcontr =>
      hJ ((rootedJoin_eq_root_iff S).mp hcontr)
    have hrepl : replBackslash (rootedJoin S) = rootedJoin S :=
      replBackslash_eq_self (no_backslash_rootedJoin hS)
    cases b with
    | false =>
      have hform : mkForm S false = rootedJoin S := by
        simp [mkForm, restoreDirSlash]
      rw [hform, normalizeChars_steps (rootedJoin_ne_nil S),
        stripDrive_of_head_slash (show (rootedJoin S).head? = some '/' from rfl),
        pathClean_rootedJoin hne hS, hrepl, ensureLeadSlash_rootedJoin,
        lastIsSlash_rootedJoin hne hS]
      simp [restoreDirSlash]
    | true =>
      have hform : mkForm S true = rootedJoin S ++ ['/'] := by
        simp [mkForm, restoreDirSlash, hroot]
      have harg_ne : rootedJoin S ++ ['/'] ≠ [] := by simp
      have hhead : (rootedJoin S ++ ['/']).head? = some '/' := by
        rw [show rootedJoin S ++ ['/'] = '/' :: (joinSegs S ++ ['/']) from by
          simp [rootedJoin]]
        rfl
      have hlast : lastIsSlash (rootedJoin S ++ ['/']) = true := by
        simp [lastIsSlash, List.getLast?_concat]
      rw [hform, normalizeChars_steps harg_ne, stripDrive_of_head_slash hhead,
        pathClean_rootedJoin_slash hne hS, hrepl, ensureLeadSlash_rootedJoin, hlast]
      simp [restoreDirSlash, hroot]

/-- Under the well-behavedness hypotheses of the amended claim C3, the result
of `normalizeName` has the normal form `mkForm S isDir` for good segments
`S`. -/
theorem normalizeChars_shape {p : List Char} (h0 : p ≠ []) (h1 : '\\' ∉ p)
    (h2 : ['.', '.'] ∉ splitSeg (stripDriveChars p))
    (h3 : pathCleanChars (stripDriveChars p) ≠ ['.']) :
    ∃ S, (∀ s ∈ S, GoodSeg s) ∧ normalizeChars p = mkForm S (lastIsSlash p) := by
  have hq1 : '\\' ∉ stripDriveChars p := fun hmem => h1 (mem_of_mem_stripDrive hmem)
  cases hbr : ((stripDriveChars p).head? == some '/') with
  | true =>
    refine ⟨cleanSegsAux true [] (splitSeg (stripDriveChars p)), ?_, ?_⟩
    · intro s hs
      rw [cleanSegsAux_nil_acc h2] at hs
      exact goodSeg_of_filter hq1 h2 hs
    · have hpc : pathCleanChars (stripDriveChars p) =
          rootedJoin (cleanSegsAux true [] (splitSeg (stripDriveChars p))) := by
        by_cases hS0 : cleanSegsAux true [] (splitSeg (stripDriveChars p)) = []
        · rw [pathCleanChars_rooted_nil hbr hS0, hS0]
          rfl
        · rw [pathCleanChars_rooted_ne_nil hbr hS0]
          rfl
      have hSgood : ∀ s ∈ cleanSegsAux true [] (splitSeg (stripDriveChars p)),
          GoodSeg s := by
        intro s hs
        rw [cleanSegsAux_nil_acc h2] at hs
        exact goodSeg_of_filter hq1 h2 hs
      rw [normalizeChars_steps h0, hpc,
        replBackslash_eq_self (no_backslash_rootedJoin hSgood),
        ensureLeadSlash_rootedJoin]
      rfl
  | false =>
    have hSgood : ∀ s ∈ cleanSegsAux false [] (splitSeg (stripDriveChars p)),
        GoodSeg s := by
      intro s hs
      rw [cleanSegsAux_nil_acc h2] at hs
      exact goodSeg_of_filter hq1 h2 hs
    have hSne : cleanSegsAux false [] (splitSeg (stripDriveChars p)) ≠ [] := by
      intro hS0
      exact h3 (pathCleanChars_unrooted_nil hbr hS0)
    refine ⟨cleanSegsAux false [] (splitSeg (stripDriveChars p)), hSgood, ?_⟩
    rw [normalizeChars_steps h0, pathCleanChars_unrooted_ne_nil hbr hSne,
      replBackslash_eq_self (fun hmem => no_backslash_joinSegs hSgood hmem)]
    have hhd : (joinSegs (cleanSegsAux false [] (splitSeg (stripDriveChars p)))).head? ≠
        some '/' := head?_joinSegs_ne_slash hSne hSgood
    rw [show ensureLeadSlash (joinSegs (cleanSegsAux false [] (splitSeg (stripDriveChars p)))) =
        rootedJoin (cleanSegsAux false [] (splitSeg (stripDriveChars p))) from by
      simp only [ensureLeadSlash, if_neg hhd]
      rfl]
    rfl

/-- Amended claim C3, character-list level: `normalizeName` is idempotent on
every input that contains no backslash and, after drive-letter stripping, no
`".."` segment, provided cleaning does not collapse the name to `"."`. -/
theorem normalizeChars_idem {p : List Char} (h0 : p ≠ []) (h1 : '\\' ∉ p)
    (h2 : ['.', '.'] ∉ splitSeg (stripDriveChars p))
    (h3 : pathCleanChars (stripDriveChars p) ≠ ['.']) :
    normalizeChars (normalizeChars p) = normalizeChars p := by
  obtain ⟨S, hSgood, hform⟩ := normalizeChars_shape h0 h1 h2 h3
  rw [hform, normalizeChars_mkForm hSgood]


/-! ## Claim C3: idempotency of path normalization -/

/-- C3 counterexample: path normalization is not idempotent as claimed.  For
`p = ".."`, `normalize(p) = "/.."` (the leading slash is prepended only after
`path.Clean` ran), while `normalize(normalize(p)) = "/"` (the second pass
cleans the now-rooted `".."` away). -/
theorem claim_c3_counterexample :
    normalizeName (normalizeName "..") ≠ normalizeName ".." ∧
    normalizeName ".." = "/.." ∧ normalizeName (normalizeName "..") = "/" := by
  refine ⟨?_, ?_, ?_⟩ <;> decide

/-- C3 (amended): `normalize(normalize(p)) = normalize(p)` holds for every
path `p` that contains no backslash, has no `".."` segment after
drive-letter stripping, and does not clean to the bare `"."` (the
counterexamples `".."`, `"a\..\b"` and `"."` force exactly these
exclusions). -/
theorem claim_c3_amended (p : String) (h0 : p ≠ "") (h1 : '\\' ∉ p.data)
    (h2 : ['.', '.'] ∉ splitSeg (stripDriveChars p.data))
    (h3 : pathCleanChars (stripDriveChars p.data) ≠ ['.']) :
    normalizeName (normalizeName p) = normalizeName p := by
  have hd : p.data ≠ [] := by
    intro hcontr
    apply h0
    have hmk : p = String.mk p.data := rfl
    rw [hmk, hcontr]
  exact congrArg String.mk (normalizeChars_idem hd h1 h2 h3)

/-- Witness for the amended C3 at `p = "/a/b/"`. -/
theorem claim_c3_witness :
    ("/a/b/" : String) ≠ "" ∧ '\\' ∉ ("/a/b/" : String).data ∧
    ['.', '.'] ∉ splitSeg (stripDriveChars ("/a/b/" : String).data) ∧
    pathCleanChars (stripDriveChars ("/a/b/" : String).data) ≠ ['.'] ∧
    normalizeName (normalizeName "/a/b/") = normalizeName "/a/b/" :=
  ⟨by decide, by decide, by decide, by decide,
    claim_c3_amended "/a/b/" (by decide) (by decide) (by decide) (by decide)⟩

/-! ## Claim C2: `IsEmptyPath` with directory emulation -/

theorem isEmptyLoop_true_from_zero (keys : List Key) :
    isEmptyLoop true keys 0 =
      (match keys with
       | [k] => nameIsADirStubChars ('/' :: k)
       | _ => false) := by
  rcases keys with _ | ⟨k, rest⟩
  · rfl
  · rcases rest with _ | ⟨k2, rest2⟩
    · cases hstub : nameIsADirStubChars ('/' :: k) <;> simp [isEmptyLoop, hstub]
    · cases hstub : nameIsADirStubChars ('/' :: k) <;> simp [isEmptyLoop, hstub]

/-- C2 counterexample: bucket `{a/b/.dir}`, directory `"/a/"`, emulation on.
The directory exists (the listing under `a/` is nonempty) and its only
object `a/b/.dir` is *not* the stub at this level (`a/.dir`), so the claim
says `IsEmptyPath("/a/") = false`; the code only tests the `"/.dir"` suffix
of the single key and returns `true`. -/
theorem claim_c2_counterexample :
    s3IsEmptyPath true [("a/b/.dir" : String).data] ("/a/" : String).data = true ∧
    isEmptyPathLevelSpec [("a/b/.dir" : String).data] ("/a/" : String).data = false ∧
    listKeys [("a/b/.dir" : String).data]
        (trimLeadSlash (nameToDirChars (normalizeChars ("/a/" : String).data))) =
      [("a/b/.dir" : String).data] ∧
    ("a/b/.dir" : String).data ≠
      trimLeadSlash (nameToStubChars (nameToDirChars (normalizeChars ("/a/" : String).data))) := by
  refine ⟨?_, ?_, ?_, ?_⟩ <;> decide

/-- C2 (amended): with emulation on, `IsEmptyPath(d)` returns true iff the
directory does not exist (per `Exists`), or the recursive listing under `d`
contains exactly one object and that object's key ends with the stub suffix
`"/.dir"` — at any depth below `d`, not necessarily `d`'s own stub. -/
theorem claim_c2_amended (bucket : List Key) (name0 : Key) :
    s3IsEmptyPath true bucket name0 =
      (!(s3Exists bucket (nameToDirChars (normalizeChars name0))) ||
        (match listKeys bucket (trimLeadSlash (nameToDirChars (normalizeChars name0))) with
         | [k] => nameIsADirStubChars ('/' :: k)
         | _ => false)) := by
  unfold s3IsEmptyPath
  cases hex : s3Exists bucket (nameToDirChars (normalizeChars name0)) with
  | false => simp [hex]
  | true => simp [hex, isEmptyLoop_true_from_zero]

/-! ## Claim C4: `Remove` semantics -/

theorem not_stub_of_dirPath {n : List Char} (h : nameIsADirPathChars n = true) :
    nameIsADirStubChars n = false := by
  cases hstub : nameIsADirStubChars n with
  | false => rfl
  | true =>
    exfalso
    have hsuf : ('/' :: dirStubChars) <:+ n := by
      simpa [nameIsADirStubChars, List.isSuffixOf_iff_suffix] using hstub
    obtain ⟨t, ht⟩ := hsuf
    have hlast : n.getLast? = some 'r' := by
      rw [← ht, List.getLast?_append]
      rfl
    simp [nameIsADirPathChars, lastIsSlash, hlast] at h

theorem stubToDir_of_dirPath {n : List Char} (h : nameIsADirPathChars n = true) :
    stubToDirChars n = n := by
  simp [stubToDirChars, not_stub_of_dirPath h]

theorem stubToDir_of_not_stub {n : List Char} (h : nameIsADirStubChars n = false) :
    stubToDirChars n = n := by
  simp [stubToDirChars, h]

/-- C4: `Remove` is an idempotent delete that refuses non-empty directories.
For a (non-stub) object path `p`, `Remove(p)` reports no error whether or
not the object exists, and a second `Remove(p)` reports none either; for a
directory path `d` that is not empty (per `IsEmptyPath`), `Remove(d)`
returns `ErrDirectoryNotEmpty` and leaves the bucket unchanged. -/
theorem claim_c4_remove (emulate : Bool) (bucket : List Key) (p d : Key)
    (hp1 : nameIsADirPathChars (normalizeChars p) = false)
    (hp2 : nameIsADirStubChars (normalizeChars p) = false)
    (hd1 : nameIsADirPathChars (normalizeChars d) = true)
    (hd2 : s3IsEmptyPath emulate bucket (normalizeChars d) = false) :
    (s3Remove emulate bucket p).2 = none ∧
    (s3Remove emulate (s3Remove emulate bucket p).1 p).2 = none ∧
    s3Remove emulate bucket d = (bucket, some GoErr.errDirectoryNotEmpty) := by
  refine ⟨?_, ?_, ?_⟩
  · simp [s3Remove, stubToDir_of_not_stub hp2, hp1]
  · simp [s3Remove, stubToDir_of_not_stub hp2, hp1]
  · simp [s3Remove, stubToDir_of_dirPath hd1, hd1, hd2]

/-- Witness for C4: `p = "/x.txt"`, `d = "/a/"`, bucket
`{x.txt, a/f.txt}`, emulation on. -/
theorem claim_c4_witness :
    nameIsADirPathChars (normalizeChars ("/x.txt" : String).data) = false ∧
    nameIsADirStubChars (normalizeChars ("/x.txt" : String).data) = false ∧
    nameIsADirPathChars (normalizeChars ("/a/" : String).data) = true ∧
    s3IsEmptyPath true [("x.txt" : String).data, ("a/f.txt" : String).data]
      (normalizeChars ("/a/" : String).data) = false ∧
    (s3Remove true [("x.txt" : String).data, ("a/f.txt" : String).data]
      ("/x.txt" : String).data).2 = none ∧
    s3Remove true [("x.txt" : String).data, ("a/f.txt" : String).data]
        ("/a/" : String).data =
      ([("x.txt" : String).data, ("a/f.txt" : String).data],
        some GoErr.errDirectoryNotEmpty) := by
  have h := claim_c4_remove true [("x.txt" : String).data, ("a/f.txt" : String).data]
    ("/x.txt" : String).data ("/a/" : String).data
    (by decide) (by decide) (by decide) (by decide)
  exact ⟨by decide, by decide, by decide, by decide, h.1, h.2.2⟩

/-! ## Claim C10: `DeleteAndUnlockEntry` on an absent staging path -/

/-- C10: when the staging path has no entry in the opened-files registry,
`DeleteAndUnlockEntry` changes nothing and unlocks nothing: the map is
returned as-is and no unlock event occurs. -/
theorem claim_c10_delete_missing_noop (reg : Registry) (k : Key)
    (h : regFind reg k = none) :
    deleteAndUnlockEntry reg k = (reg, []) := by
  simp [deleteAndUnlockEntry, h]

/-- Witness for C10 on a one-entry registry and an absent key. -/
theorem claim_c10_witness :
    regFind [(("x" : String).data,
        (⟨0, ⟨("x" : String).data, ("/x" : String).data, true⟩⟩ : RegEntry))]
      ("y" : String).data = none ∧
    deleteAndUnlockEntry [(("x" : String).data,
        (⟨0, ⟨("x" : String).data, ("/x" : String).data, true⟩⟩ : RegEntry))]
      ("y" : String).data =
      ([(("x" : String).data,
        (⟨0, ⟨("x" : String).data, ("/x" : String).data, true⟩⟩ : RegEntry))], []) :=
  ⟨by decide,
    claim_c10_delete_missing_noop _ _ (by decide)⟩

/-! ## Claim C9: callback interposition -/

/-- C9: for every wrapped operation: when the before-callback errors, the
primary operation and the after-callback do not run and the before-error is
returned; when the before-callback succeeds, the operation runs on the
callback's (possibly replaced) context, the after-callback runs on the
release path, and its error surfaces only when the primary error is `nil` (a
primary error wins). -/
theorem claim_c9_callbacks {α : Type} (env : CBEnv) (op : Nat → α × Option GoErr)
    (ctx : Nat) :
    (∀ ctx' e, invokeBeforeCB env ctx = (ctx', some e) →
      runWrapped env op ctx = (none, some e, [OpEvent.evBefore])) ∧
    (∀ ctx', invokeBeforeCB env ctx = (ctx', none) →
      runWrapped env op ctx =
        (some (op ctx').1,
          (match (op ctx').2 with
           | some e => some e
           | none => invokeAfterCB env ctx'),
          [OpEvent.evBefore, OpEvent.evPrimary, OpEvent.evAfter])) := by
  constructor
  · intro ctx' e h
    simp [runWrapped, h]
  · intro ctx' h
    simp [runWrapped, h]

/-- Witness for C9: a before-callback that enriches the context, a failing
primary operation, and an after-callback that errors — the primary error
wins and all three steps ran. -/
theorem claim_c9_witness :
    runWrapped
      ⟨some (fun n => (n + 1, none)), some (fun _ => some (GoErr.user 7))⟩
      (fun n => (n * 2, some (GoErr.user 9))) 5 =
      (some 12, some (GoErr.user 9),
        [OpEvent.evBefore, OpEvent.evPrimary, OpEvent.evAfter]) ∧
    runWrapped
      ⟨some (fun n => (n, some (GoErr.user 3))), some (fun _ => some (GoErr.user 7))⟩
      (fun n : Nat => (n * 2, some (GoErr.user 9))) 5 =
      (none, some (GoErr.user 3), [OpEvent.evBefore]) := by
  constructor
  · exact (claim_c9_callbacks
      ⟨some (fun n => (n + 1, none)), some (fun _ => some (GoErr.user 7))⟩
      (fun n => (n * 2, some (GoErr.user 9))) 5).2 6 rfl
  · exact (claim_c9_callbacks
      ⟨some (fun n => (n, some (GoErr.user 3))), some (fun _ => some (GoErr.user 7))⟩
      (fun n : Nat => (n * 2, some (GoErr.user 9))) 5).1 5 (GoErr.user 3) rfl



/-! ## Claims C5 and C6: `openFile` and the registry -/

theorem regFind_insert_self (reg : Registry) (k : Key) (e : RegEntry) :
    regFind (regInsert reg k e) k = some e := by
  induction reg with
  | nil => simp [regInsert, regFind]
  | cons kv rest ih =>
    rcases kv with ⟨k', e'⟩
    by_cases hk : (k' == k) = true
    · simp [regInsert, hk, regFind]
    · simp only [regInsert, hk, Bool.false_eq_true, if_false, regFind]
      simp [hk, ih]

theorem regErase_insert_of_absent {reg : Registry} {k : Key}
    (h : regFind reg k = none) (e : RegEntry) :
    regErase (regInsert reg k e) k = reg := by
  induction reg with
  | nil => simp [regInsert, regErase]
  | cons kv rest ih =>
    rcases kv with ⟨k', e'⟩
    by_cases hk : (k' == k) = true
    · simp [regFind, hk] at h
    · simp only [regFind, hk, Bool.false_eq_true, if_false] at h
      simp only [regInsert, hk, Bool.false_eq_true, if_false, regErase, ih h]

theorem deleteAndUnlock_insert_of_absent {reg : Registry} {k : Key}
    (h : regFind reg k = none) (e : RegEntry) :
    deleteAndUnlockEntry (regInsert reg k e) k =
      (reg, [OpenEvent.entryDeletedAndUnlocked k]) := by
  simp [deleteAndUnlockEntry, regFind_insert_self, regErase_insert_of_absent h]

/-- C5: an open request (any of the three modes) whose staging path already
has a registry entry returns that entry's handle together with the non-nil
`ErrFileAlreadyOpened`, and leaves the registry (and the event trace)
unchanged. -/
theorem claim_c5_already_opened (reg : Registry) (tempDir : Key) (now : Nat)
    (name0 : Key) (fileMode : Nat) (mp g c r : Bool) (entry : RegEntry)
    (hmode : fileMode ≤ 2)
    (hdir : nameIsADirChars (normalizeChars name0) = false)
    (hfound : regFind reg (tempFileName tempDir (normalizeChars name0)) = some entry) :
    openFileM reg tempDir now name0 fileMode mp g c r =
      ⟨some entry.s3file, some GoErr.errFileAlreadyOpened, reg, []⟩ := by
  have hmode' : ¬(2 < fileMode) := by omega
  simp [openFileM, hmode', hdir, hfound]

/-- Witness for C5: `/a.txt` already open (its staging path is registered);
a second `Open` returns the registered handle plus the error. -/
theorem claim_c5_witness :
    (0 : Nat) ≤ 2 ∧
    nameIsADirChars (normalizeChars ("/a.txt" : String).data) = false ∧
    regFind [(tempFileName ("./" : String).data (normalizeChars ("/a.txt" : String).data),
        (⟨3, ⟨("t" : String).data, ("/a.txt" : String).data, true⟩⟩ : RegEntry))]
      (tempFileName ("./" : String).data (normalizeChars ("/a.txt" : String).data)) =
      some (⟨3, ⟨("t" : String).data, ("/a.txt" : String).data, true⟩⟩ : RegEntry) ∧
    openFileM [(tempFileName ("./" : String).data (normalizeChars ("/a.txt" : String).data),
        (⟨3, ⟨("t" : String).data, ("/a.txt" : String).data, true⟩⟩ : RegEntry))]
      ("./" : String).data 9 ("/a.txt" : String).data 0 true true true true =
      ⟨some ⟨("t" : String).data, ("/a.txt" : String).data, true⟩,
        some GoErr.errFileAlreadyOpened,
        [(tempFileName ("./" : String).data (normalizeChars ("/a.txt" : String).data),
          (⟨3, ⟨("t" : String).data, ("/a.txt" : String).data, true⟩⟩ : RegEntry))], []⟩ :=
  ⟨by decide, by decide, by decide,
    claim_c5_already_opened
      [(tempFileName ("./" : String).data (normalizeChars ("/a.txt" : String).data),
        (⟨3, ⟨("t" : String).data, ("/a.txt" : String).data, true⟩⟩ : RegEntry))]
      ("./" : String).data 9 ("/a.txt" : String).data 0 true true true true
      (⟨3, ⟨("t" : String).data, ("/a.txt" : String).data, true⟩⟩ : RegEntry)
      (by decide) (by decide) (by decide)⟩

/-- C6: in `openFile`, any failure after the new entry was admitted into the
registry (object fetch, staging creation/copy, or the staging reopen) ends
with the entry deleted from the registry and its lock released (the
delete-and-unlock event fires) and a non-nil error; the registry is exactly
as before the call, so a failed open leaves no registry entry behind; and the
partially prepared file handle is closed — the close event fires exactly when
a handle had been prepared by the time of the failure (the named return `f`
is non-nil, which is the reopen-failure case; the earlier fetch/staging
failures happen before any handle exists). -/
theorem claim_c6_post_admission_cleanup (reg : Registry) (tempDir : Key)
    (now : Nat) (name0 : Key) (fileMode : Nat) (g c r : Bool)
    (hmode : fileMode ≤ 2)
    (hdir : nameIsADirChars (normalizeChars name0) = false)
    (habsent : regFind reg (tempFileName tempDir (normalizeChars name0)) = none)
    (hfail : (fileMode ≠ 1 ∧ (g = false ∨ c = false)) ∨ r = false) :
    (openFileM reg tempDir now name0 fileMode true g c r).err.isSome = true ∧
    (openFileM reg tempDir now name0 fileMode true g c r).reg = reg ∧
    OpenEvent.entryDeletedAndUnlocked (tempFileName tempDir (normalizeChars name0)) ∈
      (openFileM reg tempDir now name0 fileMode true g c r).events ∧
    regFind (openFileM reg tempDir now name0 fileMode true g c r).reg
      (tempFileName tempDir (normalizeChars name0)) = none ∧
    (OpenEvent.handleClosed (tempFileName tempDir (normalizeChars name0)) ∈
        (openFileM reg tempDir now name0 fileMode true g c r).events ↔
      (openFileM reg tempDir now name0 fileMode true g c r).file.isSome = true) := by
  have hmode' : ¬(2 < fileMode) := by omega
  have hdel := deleteAndUnlock_insert_of_absent habsent
    (⟨now, ⟨tempFileName tempDir (normalizeChars name0), normalizeChars name0, false⟩⟩ :
      RegEntry)
  by_cases hcond : fileMode ≠ 1 ∧ (g = false ∨ c = false)
  · simp [openFileM, hmode', hdir, habsent, hcond, hdel, habsent]
  · have hr : r = false := by
      rcases hfail with ⟨hm, hgc⟩ | hr
      · exact absurd ⟨hm, hgc⟩ hcond
      · exact hr
    simp [openFileM, hmode', hdir, habsent, hcond, hr, hdel, habsent]

/-- Witness for C6: a failing staging reopen during `Open` of `/a.txt` over
an empty registry — the cleanup deletes and unlocks the fresh entry and
closes the partially prepared handle. -/
theorem claim_c6_witness :
    (0 : Nat) ≤ 2 ∧
    nameIsADirChars (normalizeChars ("/a.txt" : String).data) = false ∧
    regFind ([] : Registry)
      (tempFileName ("./" : String).data
        (normalizeChars ("/a.txt" : String).data)) = none ∧
    ((0 ≠ 1 ∧ (true = false ∨ true = false)) ∨ false = false) ∧
    (openFileM [] ("./" : String).data 9 ("/a.txt" : String).data 0
      true true true false).err.isSome = true ∧
    (openFileM [] ("./" : String).data 9 ("/a.txt" : String).data 0
      true true true false).reg = [] ∧
    OpenEvent.handleClosed (tempFileName ("./" : String).data
        (normalizeChars ("/a.txt" : String).data)) ∈
      (openFileM [] ("./" : String).data 9 ("/a.txt" : String).data 0
        true true true false).events := by
  have h := claim_c6_post_admission_cleanup [] ("./" : String).data 9
    ("/a.txt" : String).data 0 true true false
    (by decide) (by decide) (by decide) (Or.inr rfl)
  exact ⟨by decide, by decide, by decide, Or.inr rfl, h.1, h.2.1,
    h.2.2.2.2.mpr (by decide)⟩

/-! ## Claim C8: the `Count` loop -/

/-- C8: the listing loop of `Count`, in closed form.  Starting from running
count `c`: if no entry stops the iteration, the result is the count
incremented once per entry, no error, and (when a callback is supplied) one
callback invocation `(info, running count)` per entry; otherwise the loop
ends at the first stopping entry — the callback's veto (`proceed=false`)
stops with no error, a callback error aborts with that error, and an entry's
listing error is propagated immediately — having processed and counted
exactly the entries up to and including it. -/
theorem claim_c8_count (countFunc : Option (Key → Int → Bool × Option GoErr))
    (entries : List CountEntry) (c : Int) :
    countLoop countFunc entries c =
      (match stopInfo countFunc entries c with
       | none =>
         (c + (entries.length : Int), none,
           match countFunc with
           | some _ => callsFor entries c entries.length
           | none => [])
       | some (k, e) =>
         (c + (k : Int), stopErr countFunc e (c + (k : Int)),
           match countFunc with
           | some _ => callsFor entries c k
           | none => [])) := by
  induction entries generalizing c with
  | nil => cases countFunc <;> simp [countLoop, stopInfo, callsFor]
  | cons e rest ih =>
    cases countFunc with
    | none =>
      cases herr : e.err with
      | some oe =>
        have hstop : stopsAt none e (c + 1) = true := by simp [stopsAt, herr]
        simp [countLoop, stopInfo, stopErr, herr, hstop]
      | none =>
        have hstop : stopsAt none e (c + 1) = false := by simp [stopsAt, herr]
        simp only [countLoop, herr, stopInfo, hstop, Bool.false_eq_true, if_false]
        rw [ih (c + 1)]
        cases hsi : stopInfo none rest (c + 1) with
        | none =>
          simp only [hsi, Option.map_none', List.length_cons]
          refine Prod.ext ?_ rfl
          push_cast
          ring
        | some pr =>
          rcases pr with ⟨k, e'⟩
          simp only [hsi, Option.map_some']
          refine Prod.ext ?_ (Prod.ext ?_ rfl)
          · push_cast
            ring
          · simp only []
            congr 1
            push_cast
            ring
    | some f =>
      rcases hpe : f e.info (c + 1) with ⟨proceed, ferr⟩
      cases proceed with
      | false =>
        have hstop : stopsAt (some f) e (c + 1) = true := by simp [stopsAt, hpe]
        simp [countLoop, stopInfo, stopErr, hpe, hstop, callsFor]
      | true =>
        cases hferr : ferr with
        | some er =>
          have hstop : stopsAt (some f) e (c + 1) = true := by
            simp [stopsAt, hpe, hferr]
          simp [countLoop, stopInfo, stopErr, hpe, hstop, hferr, callsFor]
        | none =>
          cases herr : e.err with
          | some oe =>
            have hstop : stopsAt (some f) e (c + 1) = true := by
              simp [stopsAt, hpe, hferr, herr]
            simp [countLoop, stopInfo, stopErr, hpe, hstop, hferr, herr, callsFor]
          | none =>
            have hstop : stopsAt (some f) e (c + 1) = false := by
              simp [stopsAt, hpe, hferr, herr]
            simp only [countLoop, hpe, hferr, herr, stopInfo, hstop,
              Bool.not_true, Bool.false_eq_true, if_false]
            rw [ih (c + 1)]
            cases hsi : stopInfo (some f) rest (c + 1) with
            | none =>
              simp only [hsi, Option.map_none', List.length_cons, callsFor]
              refine Prod.ext ?_ (Prod.ext rfl rfl)
              push_cast
              ring
            | some pr =>
              rcases pr with ⟨k, e'⟩
              simp only [hsi, Option.map_some', callsFor]
              refine Prod.ext ?_ (Prod.ext ?_ rfl)
              · push_cast
                ring
              · simp only []
                congr 1
                push_cast
                ring


/-! ## Claim C1: equivalence of the two cleaner strategies

Infrastructure: `findEntry` / `treeLookup` / `updateAt` algebra. -/

theorem findEntry_append_of_not_mem {done : List (String × FTree)} {n : String}
    (h : n ∉ done.map Prod.fst) (rest : List (String × FTree)) :
    findEntry (done ++ rest) n = findEntry rest n := by
  induction done with
  | nil => rfl
  | cons e tl ih =>
    have hne : ¬ (e.1 == n) = true := by
      simp only [beq_iff_eq]
      intro hc
      exact h (by simp [hc])
    simp only [List.cons_append, findEntry, if_neg hne]
    exact ih (fun hm => h (by simp only [List.map_cons, List.mem_cons]; right; exact hm))

theorem findEntry_mem {cs : List (String × FTree)} {n : String} {c : FTree}
    (h : findEntry cs n = some c) : (n, c) ∈ cs := by
  induction cs with
  | nil => simp [findEntry] at h
  | cons e tl ih =>
    by_cases he : (e.1 == n) = true
    · simp only [findEntry, if_pos he] at h
      have : e = (n, c) := by
        rcases e with ⟨en, ec⟩
        simp only [beq_iff_eq] at he
        cases h
        simp [he]
      simp [this]
    · simp only [findEntry, if_neg he] at h
      exact List.mem_cons_of_mem _ (ih h)

theorem updateEntriesF_append_of_not_mem {done : List (String × FTree)}
    {n : String} (h : n ∉ done.map Prod.fst) (f : FTree → Option FTree)
    (rest : List (String × FTree)) :
    updateEntriesF n f (done ++ rest) = done ++ updateEntriesF n f rest := by
  induction done with
  | nil => rfl
  | cons e tl ih =>
    have hne : ¬ (e.1 == n) = true := by
      simp only [beq_iff_eq]
      intro hc
      exact h (by simp [hc])
    simp only [List.cons_append, updateEntriesF, if_neg hne]
    exact congrArg (List.cons e)
      (ih (fun hm => h (by simp only [List.map_cons, List.mem_cons]; right; exact hm)))

theorem updateEntriesF_cons_self (n : String) (f : FTree → Option FTree)
    (c : FTree) (rest : List (String × FTree)) :
    updateEntriesF n f ((n, c) :: rest) =
      (match f c with
       | none => rest
       | some t' => (n, t') :: rest) := by
  simp [updateEntriesF]

theorem updateEntriesF_congr {f g : FTree → Option FTree}
    (h : ∀ c, f c = g c) (n : String) (cs : List (String × FTree)) :
    updateEntriesF n f cs = updateEntriesF n g cs := by
  induction cs with
  | nil => rfl
  | cons e tl ih =>
    by_cases he : (e.1 == n) = true
    · simp only [updateEntriesF, if_pos he, h e.2]
    · simp only [updateEntriesF, if_neg he, ih]

theorem updateEntriesF_congr_hit {cs : List (String × FTree)} {n : String}
    {c : FTree} (hfe : findEntry cs n = some c) {f g : FTree → Option FTree}
    (h : f c = g c) : updateEntriesF n f cs = updateEntriesF n g cs := by
  induction cs with
  | nil => rfl
  | cons e tl ih =>
    by_cases he : (e.1 == n) = true
    · simp only [findEntry, if_pos he] at hfe
      cases hfe
      simp only [updateEntriesF, if_pos he, h]
    · simp only [findEntry, if_neg he] at hfe
      simp only [updateEntriesF, if_neg he, ih hfe]

theorem updateEntriesF_comp_some {n : String} {fi fo go : FTree → Option FTree}
    (h : ∀ c, ∃ x, fi c = some x ∧ fo x = go c) (cs : List (String × FTree)) :
    updateEntriesF n fo (updateEntriesF n fi cs) = updateEntriesF n go cs := by
  induction cs with
  | nil => rfl
  | cons e tl ih =>
    by_cases he : (e.1 == n) = true
    · rcases h e.2 with ⟨x, hx, hfo⟩
      simp only [updateEntriesF, if_pos he, hx]
      simp only [updateEntriesF, if_pos he, hfo]
    · simp only [updateEntriesF, if_neg he, ih]

theorem findEntry_updateEntriesF_some {cs : List (String × FTree)} {n : String}
    {c : FTree} (hfe : findEntry cs n = some c) {f : FTree → Option FTree}
    {x : FTree} (hfx : f c = some x) :
    findEntry (updateEntriesF n f cs) n = some x := by
  induction cs with
  | nil => simp [findEntry] at hfe
  | cons e tl ih =>
    by_cases he : (e.1 == n) = true
    · simp only [findEntry, if_pos he] at hfe
      cases hfe
      simp only [updateEntriesF, if_pos he, hfx, findEntry, if_pos he]
    · simp only [findEntry, if_neg he] at hfe
      simp only [updateEntriesF, if_neg he, findEntry, if_neg he, ih hfe]

theorem treeLookup_nil (t : FTree) : treeLookup t [] = some t := by
  cases t <;> rfl

theorem updateEntriesF_some_self (n : String) (cs : List (String × FTree)) :
    updateEntriesF n some cs = cs := by
  induction cs with
  | nil => rfl
  | cons e tl ih =>
    by_cases he : (e.1 == n) = true
    · have h1 : updateEntriesF n some (e :: tl) = (e.1, e.2) :: tl := by
        simp only [updateEntriesF, if_pos he]
      rw [h1]
    · simp only [updateEntriesF, if_neg he, ih]

theorem updateAt_nil (c : FTree) (o : Option FTree) :
    updateAt c [] o = o.getD c := by
  cases c <;> cases o <;> rfl

theorem updateAt_file (p : TPath) (o : Option FTree) :
    updateAt .file p o = (match p with | [] => o.getD .file | _ :: _ => .file) := by
  cases p <;> cases o <;> rfl

theorem updateAt_dir_cons (cs : List (String × FTree)) (n : String) (p : TPath)
    (o : Option FTree) (h : p ≠ [] ∨ o.isSome) :
    updateAt (.dir cs) (n :: p) o =
      .dir (updateEntriesF n (fun c => some (updateAt c p o)) cs) := by
  cases p with
  | nil =>
    cases o with
    | none => rcases h with h | h; exact absurd rfl h; simp at h
    | some t => rfl
  | cons a b => rfl

theorem updateAt_dir_cons_none (cs : List (String × FTree)) (n : String) :
    updateAt (.dir cs) [n] none = .dir (updateEntriesF n (fun _ => none) cs) := rfl

theorem treeLookup_append (σ : FTree) (p q : TPath) :
    treeLookup σ (p ++ q) = (treeLookup σ p).bind (fun t => treeLookup t q) := by
  induction p generalizing σ with
  | nil => simp [treeLookup]
  | cons n p ih =>
    cases σ with
    | file => simp [treeLookup]
    | dir cs =>
      simp only [List.cons_append, treeLookup]
      cases hfe : findEntry cs n with
      | none => simp
      | some c => simpa using ih c

theorem treeLookup_child {σ : FTree} {p : TPath} {cs : List (String × FTree)}
    {n : String} {c : FTree} (hl : treeLookup σ p = some (.dir cs))
    (hf : findEntry cs n = some c) :
    treeLookup σ (p ++ [n]) = some c := by
  rw [treeLookup_append, hl]
  simp [treeLookup, hf]

theorem updateAt_self {σ : FTree} {p : TPath} {t : FTree}
    (h : treeLookup σ p = some t) : updateAt σ p (some t) = σ := by
  induction p generalizing σ with
  | nil =>
    rw [treeLookup_nil] at h
    cases h
    rw [updateAt_nil, Option.getD_some]
  | cons n p ih =>
    cases σ with
    | file => rfl
    | dir cs =>
      simp only [treeLookup] at h
      cases hfe : findEntry cs n with
      | none => simp [hfe] at h
      | some c =>
        rw [hfe] at h
        rw [updateAt_dir_cons cs n p (some t) (Or.inr rfl)]
        congr 1
        calc updateEntriesF n (fun c => some (updateAt c p (some t))) cs
            = updateEntriesF n some cs :=
              updateEntriesF_congr_hit hfe (by rw [ih h])
          _ = cs := updateEntriesF_some_self n cs

theorem updateAt_append {q : TPath} (hq : q ≠ []) {σ : FTree} {p : TPath}
    {t : FTree} (h : treeLookup σ p = some t) (o : Option FTree) :
    updateAt σ (p ++ q) o = updateAt σ p (some (updateAt t q o)) := by
  induction p generalizing σ with
  | nil =>
    simp only [treeLookup] at h
    cases h
    rw [List.nil_append, updateAt_nil]
    rfl
  | cons n p ih =>
    cases σ with
    | file => rfl
    | dir cs =>
      simp only [treeLookup] at h
      cases hfe : findEntry cs n with
      | none => simp [hfe] at h
      | some c =>
        rw [hfe] at h
        have hpq : p ++ q ≠ [] := by
          intro hc
          exact hq (List.append_eq_nil.mp hc).2
        rw [List.cons_append, updateAt_dir_cons cs n (p ++ q) o (Or.inl hpq),
          updateAt_dir_cons cs n p (some (updateAt t q o)) (Or.inr rfl)]
        congr 1
        exact updateEntriesF_congr_hit hfe (by rw [ih h])

theorem treeLookup_updateAt_some {σ : FTree} {p : TPath} {t₀ : FTree}
    (h : treeLookup σ p = some t₀) (t : FTree) :
    treeLookup (updateAt σ p (some t)) p = some t := by
  induction p generalizing σ with
  | nil =>
    rw [updateAt_nil, Option.getD_some, treeLookup_nil]
  | cons n p ih =>
    cases σ with
    | file => simp [treeLookup] at h
    | dir cs =>
      simp only [treeLookup] at h
      cases hfe : findEntry cs n with
      | none => simp [hfe] at h
      | some c =>
        rw [hfe] at h
        rw [updateAt_dir_cons cs n p (some t) (Or.inr rfl)]
        simp only [treeLookup]
        rw [findEntry_updateEntriesF_some hfe
          (f := fun c => some (updateAt c p (some t))) rfl]
        exact ih h

theorem updateAt_updateAt {p : TPath} {o : Option FTree}
    (ho : p ≠ [] ∨ o.isSome) (σ t : FTree) :
    updateAt (updateAt σ p (some t)) p o = updateAt σ p o := by
  induction p generalizing σ with
  | nil =>
    rcases ho with ho | ho
    · exact absurd rfl ho
    · cases o with
      | none => simp at ho
      | some t' => rw [updateAt_nil, updateAt_nil, updateAt_nil]; rfl
  | cons n p ih =>
    cases σ with
    | file => rfl
    | dir cs =>
      by_cases hpo : p ≠ [] ∨ o.isSome
      · rw [updateAt_dir_cons cs n p (some t) (Or.inr rfl),
          updateAt_dir_cons _ n p o hpo, updateAt_dir_cons cs n p o hpo]
        congr 1
        exact updateEntriesF_comp_some
          (fun c => ⟨updateAt c p (some t), rfl, by rw [ih hpo]⟩) cs
      · push_neg at hpo
        rcases hpo with ⟨hp, hno⟩
        cases o with
        | some t' => simp at hno
        | none =>
          subst hp
          rw [updateAt_dir_cons cs n [] (some t) (Or.inr rfl),
            updateAt_dir_cons_none, updateAt_dir_cons_none]
          congr 1
          exact updateEntriesF_comp_some
            (fun c => ⟨updateAt c [] (some t), rfl, rfl⟩) cs


/-! ### Well-formedness and size bookkeeping -/

theorem namesNodup_iff (l : List String) : namesNodup l = true ↔ l.Nodup := by
  induction l with
  | nil => simp [namesNodup]
  | cons n rest ih =>
    simp [namesNodup, ih, List.nodup_cons, List.elem_iff]

theorem wfEntries_mem {cs : List (String × FTree)} {n : String} {c : FTree}
    (hm : (n, c) ∈ cs) (hw : wfEntries cs = true) : c.wfB = true := by
  induction cs with
  | nil => simp at hm
  | cons e tl ih =>
    rw [wfEntries, Bool.and_eq_true] at hw
    rcases List.mem_cons.mp hm with hm | hm
    · cases hm; exact hw.1
    · exact ih hm hw.2

theorem wfB_dir_parts {cs : List (String × FTree)}
    (h : FTree.wfB (.dir cs) = true) :
    (cs.map Prod.fst).Nodup ∧ wfEntries cs = true := by
  rw [FTree.wfB, Bool.and_eq_true] at h
  exact ⟨(namesNodup_iff _).mp h.1, h.2⟩

theorem wfB_treeLookup {σ : FTree} {p : TPath} {t : FTree}
    (hw : σ.wfB = true) (hl : treeLookup σ p = some t) : t.wfB = true := by
  induction p generalizing σ with
  | nil => rw [treeLookup_nil] at hl; cases hl; exact hw
  | cons n p ih =>
    cases σ with
    | file => simp [treeLookup] at hl
    | dir cs =>
      simp only [treeLookup] at hl
      cases hfe : findEntry cs n with
      | none => simp [hfe] at hl
      | some c =>
        rw [hfe] at hl
        exact ih (wfEntries_mem (findEntry_mem hfe) (wfB_dir_parts hw).2) hl

theorem size_pos (c : FTree) : 1 ≤ c.size := by
  cases c with
  | file => simp [FTree.size]
  | dir cs => rw [FTree.size]; omega

theorem sizeEntries_append (a b : List (String × FTree)) :
    sizeEntries (a ++ b) = sizeEntries a + sizeEntries b := by
  induction a with
  | nil => simp [sizeEntries]
  | cons e tl ih => simp only [List.cons_append, sizeEntries, List.append_eq, ih]; omega

theorem size_le_of_mem {cs : List (String × FTree)} {n : String} {c : FTree}
    (hm : (n, c) ∈ cs) : c.size ≤ sizeEntries cs := by
  induction cs with
  | nil => simp at hm
  | cons e tl ih =>
    rw [sizeEntries]
    rcases List.mem_cons.mp hm with hm | hm
    · cases hm; dsimp only; omega
    · have := ih hm; omega

theorem treeLookup_size_le {σ : FTree} {p : TPath} {t : FTree}
    (hl : treeLookup σ p = some t) : t.size ≤ σ.size := by
  induction p generalizing σ with
  | nil => rw [treeLookup_nil] at hl; cases hl; exact le_refl _
  | cons n p ih =>
    cases σ with
    | file => simp [treeLookup] at hl
    | dir cs =>
      simp only [treeLookup] at hl
      cases hfe : findEntry cs n with
      | none => simp [hfe] at hl
      | some c =>
        rw [hfe] at hl
        have h1 := ih hl
        have h2 := size_le_of_mem (findEntry_mem hfe)
        rw [FTree.size]
        omega

theorem dirCount_le_size_all (N : Nat) :
    (∀ c : FTree, c.size ≤ N → dirCount c ≤ c.size) ∧
    (∀ cs : List (String × FTree),
      sizeEntries cs ≤ N → dirCountEntries cs ≤ sizeEntries cs) := by
  induction N with
  | zero =>
    constructor
    · intro c hc
      have := size_pos c
      omega
    · intro cs hcs
      cases cs with
      | nil => simp [dirCountEntries, sizeEntries]
      | cons e tl =>
        rw [sizeEntries] at hcs
        have := size_pos e.2
        omega
  | succ N ih =>
    have htree : ∀ c : FTree, c.size ≤ N + 1 → dirCount c ≤ c.size := by
      intro c hc
      cases c with
      | file => simp [dirCount]
      | dir cs =>
        rw [FTree.size] at hc ⊢
        rw [dirCount]
        have := ih.2 cs (by omega)
        omega
    refine ⟨htree, ?_⟩
    intro cs
    induction cs with
    | nil => intro _; simp [dirCountEntries, sizeEntries]
    | cons e tl ihl =>
      intro hcs
      rw [sizeEntries] at hcs ⊢
      rw [dirCountEntries]
      have h1 := size_pos e.2
      have h2 := htree e.2 (by omega)
      have h3 := ihl (by omega)
      omega

theorem dirCount_le_size (c : FTree) : dirCount c ≤ c.size :=
  (dirCount_le_size_all c.size).1 c (le_refl _)

theorem dirCountEntries_append (a b : List (String × FTree)) :
    dirCountEntries (a ++ b) = dirCountEntries a + dirCountEntries b := by
  induction a with
  | nil => simp [dirCountEntries]
  | cons e tl ih => simp only [List.cons_append, dirCountEntries, List.append_eq, ih]; omega

/-! ### `specOutcome` characterizations -/

theorem specOutcome_dir {σ : FTree} {q : TPath} {ds : List (String × FTree)}
    (hl : treeLookup σ q = some (.dir ds)) (hq : q ≠ []) :
    specOutcome σ q =
      ⟨updateAt σ q (structClean (.dir ds)).1,
        (structClean (.dir ds)).2.1.map (fun r => q ++ r),
        (structClean (.dir ds)).2.2, none⟩ := by
  rw [specOutcome, hl]
  cases hsc : (structClean (.dir ds)).1 with
  | some t' => simp [hsc]
  | none => simp [hsc, hq]

theorem map_shift (p : TPath) (n : String) (l : List TPath) :
    l.map (fun q => p ++ n :: q) = (l.map (fun q => n :: q)).map (fun q => p ++ q) := by
  induction l with
  | nil => rfl
  | cons q tl ih =>
    simp only [List.map_cons]
    rw [ih]


/-! ### Model-primitive characterizations -/

theorem readDirM_dir {σ : FTree} {p : TPath} {cs : List (String × FTree)}
    (hl : treeLookup σ p = some (.dir cs)) :
    readDirM σ p = some (cs.map fun e => (e.1, e.2.isDirB)) := by
  rw [readDirM, hl]

theorem isDirM_of_lookup {σ : FTree} {q : TPath} {c : FTree}
    (hl : treeLookup σ q = some c) : isDirM σ q = some c.isDirB := by
  rw [isDirM, hl, Option.map_some']

theorem isEmptyM_dir {σ : FTree} {p : TPath} {cs : List (String × FTree)}
    (hl : treeLookup σ p = some (.dir cs)) :
    isEmptyM σ p = some cs.isEmpty := by
  rw [isEmptyM, hl]

theorem updateAt_updateAt_some (σ t t' : FTree) (p : TPath) :
    updateAt (updateAt σ p (some t)) p (some t') = updateAt σ p (some t') :=
  updateAt_updateAt (o := some t') (Or.inr rfl) σ t

theorem updateAt_updateAt_ne {p : TPath} (hp : p ≠ []) (σ t : FTree)
    (o : Option FTree) :
    updateAt (updateAt σ p (some t)) p o = updateAt σ p o :=
  updateAt_updateAt (Or.inl hp) σ t

/-! ### The DFS strategy computes `structClean` -/

theorem dfsItems_go (f : Nat)
    (IH : ∀ {ds : List (String × FTree)} {σ' : FTree} {q : TPath},
      FTree.wfB (.dir ds) = true →
      treeLookup σ' q = some (.dir ds) →
      1 + sizeEntries ds ≤ f →
      dfsGo f σ' q = specOutcome σ' q) :
    ∀ (rest done : List (String × FTree)) (σ : FTree) (p : TPath),
    treeLookup σ p = some (.dir (done ++ rest)) →
    ((done ++ rest).map Prod.fst).Nodup →
    wfEntries rest = true →
    sizeEntries rest ≤ f →
    dfsItems (dfsGo f) σ p (rest.map fun e => (e.1, e.2.isDirB)) =
      ⟨updateAt σ p (some (.dir (done ++ (structCleanList rest).1))),
        (structCleanList rest).2.1.map (fun q => p ++ q),
        (structCleanList rest).2.2, none⟩ := by
  intro rest
  induction rest with
  | nil =>
    intro done σ p hlook _ _ _
    rw [List.append_nil] at hlook
    simp only [List.map_nil, dfsItems, structCleanList, List.append_nil,
      updateAt_self hlook]
  | cons e rest2 ih =>
    rcases e with ⟨n, c⟩
    intro done σ p hlook hnd hwf hsz
    rw [wfEntries, Bool.and_eq_true] at hwf
    rw [sizeEntries] at hsz
    dsimp only at hwf hsz
    have hnd' := hnd
    rw [List.map_append, List.nodup_append] at hnd'
    have hnotdone : n ∉ done.map Prod.fst := fun hmem =>
      (hnd'.2.2 hmem) (by simp)
    have hfe : findEntry (done ++ (n, c) :: rest2) n = some c := by
      rw [findEntry_append_of_not_mem hnotdone]
      simp [findEntry]
    have hchild : treeLookup σ (p ++ [n]) = some c := treeLookup_child hlook hfe
    cases c with
    | file =>
      have hdm : isDirM σ (p ++ [n]) = some false := by
        rw [isDirM_of_lookup hchild]; rfl
      have hlook2 : treeLookup σ p = some (.dir ((done ++ [(n, FTree.file)]) ++ rest2)) := by
        rw [List.append_assoc, List.singleton_append]; exact hlook
      have hnd2 : (((done ++ [(n, FTree.file)]) ++ rest2).map Prod.fst).Nodup := by
        rw [List.append_assoc, List.singleton_append]; exact hnd
      have hrec := ih (done ++ [(n, FTree.file)]) σ p hlook2 hnd2 hwf.2
        (by have := size_pos FTree.file; omega)
      simp only [List.map_cons, dfsItems, hdm, hrec, structCleanList, structClean,
        List.append_assoc, List.singleton_append, List.map_nil, List.nil_append,
        Nat.zero_add]
    | dir ds =>
      have hdm : isDirM σ (p ++ [n]) = some true := by
        rw [isDirM_of_lookup hchild]; rfl
      have hszds : FTree.size (.dir ds) + sizeEntries rest2 ≤ f := hsz
      rw [FTree.size] at hszds
      have hspec := IH hwf.1 hchild (by omega)
      rw [specOutcome_dir hchild (by simp)] at hspec
      have hup := updateAt_append (q := [n]) (by simp) hlook (structClean (.dir ds)).1
      cases hR : (structClean (.dir ds)).1 with
      | some t' =>
        rw [hR] at hup hspec
        rw [updateAt_dir_cons _ n [] (some t') (Or.inr rfl),
          updateEntriesF_congr (g := fun _ => some t')
            (fun c => by rw [updateAt_nil, Option.getD_some]) n,
          updateEntriesF_append_of_not_mem hnotdone,
          updateEntriesF_cons_self] at hup
        dsimp only at hup
        have hσ' : updateAt σ (p ++ [n]) (some t') =
            updateAt σ p (some (.dir ((done ++ [(n, t')]) ++ rest2))) := by
          rw [hup, List.append_assoc, List.singleton_append]
        rw [hσ'] at hspec
        have hlook2 : treeLookup
            (updateAt σ p (some (.dir ((done ++ [(n, t')]) ++ rest2)))) p =
            some (.dir ((done ++ [(n, t')]) ++ rest2)) :=
          treeLookup_updateAt_some hlook _
        have hnd2 : (((done ++ [(n, t')]) ++ rest2).map Prod.fst).Nodup := by
          simp only [List.append_assoc, List.singleton_append, List.map_append,
            List.map_cons] at hnd ⊢
          exact hnd
        have hrec := ih (done ++ [(n, t')]) _ p hlook2 hnd2 hwf.2 (by omega)
        simp only [List.append_assoc, List.singleton_append] at hrec
        simp only [List.map_cons, dfsItems, hdm, hspec, hrec,
          updateAt_updateAt_some, structCleanList, hR,
          List.append_assoc, List.singleton_append, List.map_append,
          map_shift, Nat.zero_add]
      | none =>
        rw [hR] at hup hspec
        rw [updateAt_dir_cons_none,
          updateEntriesF_append_of_not_mem hnotdone,
          updateEntriesF_cons_self] at hup
        dsimp only at hup
        rw [hup] at hspec
        have hlook2 : treeLookup (updateAt σ p (some (.dir (done ++ rest2)))) p =
            some (.dir (done ++ rest2)) := treeLookup_updateAt_some hlook _
        have hnd2 : ((done ++ rest2).map Prod.fst).Nodup := by
          refine List.Nodup.sublist ?_ hnd
          refine List.Sublist.map _ ?_
          exact List.Sublist.append_left (List.sublist_cons_self _ _) done
        have hrec := ih done _ p hlook2 hnd2 hwf.2 (by omega)
        simp only [List.map_cons, dfsItems, hdm, hspec, hrec,
          updateAt_updateAt_some, structCleanList, hR,
          List.append_assoc, List.singleton_append, List.map_append,
          map_shift, Nat.zero_add, List.nil_append]

theorem dfsGo_spec : ∀ (fuel : Nat) {cs : List (String × FTree)} {σ : FTree}
    {p : TPath},
    FTree.wfB (.dir cs) = true →
    treeLookup σ p = some (.dir cs) →
    1 + sizeEntries cs ≤ fuel →
    dfsGo fuel σ p = specOutcome σ p := by
  intro fuel
  induction fuel with
  | zero => intro cs σ p _ _ h; omega
  | succ f ih =>
    intro cs σ p hwf hl hfuel
    have hitems := dfsItems_go f (fun hw hlq hsz => ih hw hlq hsz) cs [] σ p
      (by simpa using hl) (by simpa using (wfB_dir_parts hwf).1)
      (wfB_dir_parts hwf).2 (by omega)
    rw [List.nil_append] at hitems
    have hl2 : treeLookup (updateAt σ p (some (.dir (structCleanList cs).1))) p =
        some (.dir (structCleanList cs).1) := treeLookup_updateAt_some hl _
    simp only [dfsGo, readDirM_dir hl, hitems]
    cases hEm : (structCleanList cs).1.isEmpty with
    | false =>
      simp only [isEmptyM_dir hl2, hEm]
      rw [specOutcome, hl]
      simp only [structClean, hEm, Bool.false_eq_true, if_false]
    | true =>
      rw [List.isEmpty_iff] at hEm
      have hem2 : isEmptyM (updateAt σ p (some (.dir (structCleanList cs).1))) p
          = some true := by
        rw [isEmptyM_dir hl2, hEm]; rfl
      simp only [hem2]
      rw [hEm]
      cases p with
      | nil =>
        simp only [removeM]
        rw [specOutcome, hl]
        simp [structClean, hEm, List.dropLast_concat, updateAt_nil]
      | cons a p' =>
        have hl3 : treeLookup
            (updateAt σ (a :: p') (some (FTree.dir ([] : List (String × FTree)))))
            (a :: p') = some (FTree.dir []) := treeLookup_updateAt_some hl _
        have hrm : removeM
            (updateAt σ (a :: p') (some (FTree.dir ([] : List (String × FTree)))))
            (a :: p') = some (updateAt σ (a :: p') none) := by
          simp only [removeM, hl3, List.isEmpty_nil, if_true]
          rw [updateAt_updateAt_ne (by simp)]
        simp only [hrm]
        rw [specOutcome, hl]
        simp [structClean, hEm, List.map_append]


/-! ### Snapshot-map lookup lemmas (towards the BFS strategy) -/

theorem mapFindSnap_some_mem {m : SnapMap} {k : TPath} {v : List TPath}
    (h : mapFindSnap m k = some v) : k ∈ m.map Prod.fst := by
  induction m with
  | nil => simp [mapFindSnap] at h
  | cons e tl ih =>
    rcases e with ⟨q, ch⟩
    by_cases hq : (q == k) = true
    · simp only [beq_iff_eq] at hq
      simp [hq]
    · simp only [mapFindSnap, if_neg hq] at h
      simp only [List.map_cons, List.mem_cons]
      exact Or.inr (ih h)

theorem mapFindSnap_not_mem {m : SnapMap} {k : TPath}
    (h : k ∉ m.map Prod.fst) : mapFindSnap m k = none := by
  induction m with
  | nil => rfl
  | cons e tl ih =>
    rcases e with ⟨q, ch⟩
    have hq : ¬ (q == k) = true := by
      simp only [beq_iff_eq]
      intro hc
      exact h (by simp [hc])
    simp only [mapFindSnap, if_neg hq]
    exact ih (fun hm => h (by simp only [List.map_cons, List.mem_cons]; right; exact hm))

theorem mapFindSnap_append_left_none {A : SnapMap} {k : TPath}
    (h : mapFindSnap A k = none) (B : SnapMap) :
    mapFindSnap (A ++ B) k = mapFindSnap B k := by
  induction A with
  | nil => rfl
  | cons e tl ih =>
    rcases e with ⟨q, ch⟩
    by_cases hq : (q == k) = true
    · rw [mapFindSnap, if_pos hq] at h
      simp at h
    · simp only [mapFindSnap, if_neg hq] at h
      simp only [List.cons_append, mapFindSnap, if_neg hq]
      exact ih h

theorem mapFindSnap_append_left_some {A : SnapMap} {k : TPath} {v : List TPath}
    (h : mapFindSnap A k = some v) (B : SnapMap) :
    mapFindSnap (A ++ B) k = some v := by
  induction A with
  | nil => simp [mapFindSnap] at h
  | cons e tl ih =>
    rcases e with ⟨q, ch⟩
    by_cases hq : (q == k) = true
    · simp only [mapFindSnap, if_pos hq] at h
      simp only [List.cons_append, mapFindSnap, if_pos hq]
      exact h
    · simp only [mapFindSnap, if_neg hq] at h
      simp only [List.cons_append, mapFindSnap, if_neg hq]
      exact ih h

theorem mapFindSnap_append_congr {A B : SnapMap}
    (h : ∀ r, mapFindSnap A r = mapFindSnap B r) (x : SnapMap) (r : TPath) :
    mapFindSnap (x ++ A) r = mapFindSnap (x ++ B) r := by
  induction x with
  | nil => exact h r
  | cons e tl ih =>
    rcases e with ⟨q, ch⟩
    by_cases hq : (q == r) = true
    · simp only [List.cons_append, mapFindSnap, if_pos hq]
    · simp only [List.cons_append, mapFindSnap, if_neg hq]
      exact ih

theorem mapFindSnap_append_comm {A B : SnapMap}
    (hdisj : ∀ k, k ∈ A.map Prod.fst → k ∉ B.map Prod.fst) (r : TPath) :
    mapFindSnap (A ++ B) r = mapFindSnap (B ++ A) r := by
  cases hA : mapFindSnap A r with
  | some v =>
    rw [mapFindSnap_append_left_some hA B]
    have hB : mapFindSnap B r = none :=
      mapFindSnap_not_mem (hdisj r (mapFindSnap_some_mem hA))
    rw [mapFindSnap_append_left_none hB A, hA]
  | none =>
    rw [mapFindSnap_append_left_none hA B]
    cases hB : mapFindSnap B r with
    | some w => rw [mapFindSnap_append_left_some hB A]
    | none => rw [mapFindSnap_append_left_none hB A, hA]

/-! ### Keys of the snapshot lie in the subtree region -/

theorem snapKeys_region (N : Nat) :
    (∀ (c : FTree) (q k : TPath), c.size ≤ N →
      k ∈ (snapEntries q c).map Prod.fst → ∃ s, k = q ++ s) ∧
    (∀ (cs : List (String × FTree)) (q k : TPath), sizeEntries cs ≤ N →
      k ∈ (snapEntriesList q cs).map Prod.fst →
      ∃ n s, n ∈ cs.map Prod.fst ∧ k = q ++ n :: s) := by
  induction N with
  | zero =>
    constructor
    · intro c q k hc
      have := size_pos c
      omega
    · intro cs q k hcs hk
      cases cs with
      | nil => simp [snapEntriesList] at hk
      | cons e tl =>
        rw [sizeEntries] at hcs
        have := size_pos e.2
        omega
  | succ N ih =>
    have htree : ∀ (c : FTree) (q k : TPath), c.size ≤ N + 1 →
        k ∈ (snapEntries q c).map Prod.fst → ∃ s, k = q ++ s := by
      intro c q k hc hk
      cases c with
      | file => simp [snapEntries] at hk
      | dir cs =>
        rw [FTree.size] at hc
        simp only [snapEntries, List.map_cons, List.mem_cons] at hk
        rcases hk with hk | hk
        · exact ⟨[], by simp [hk]⟩
        · rcases ih.2 cs q k (by omega) hk with ⟨n, s, _, hks⟩
          exact ⟨n :: s, hks⟩
    refine ⟨htree, ?_⟩
    intro cs
    induction cs with
    | nil => intro q k _ hk; simp [snapEntriesList] at hk
    | cons e tl ihl =>
      intro q k hcs hk
      rw [sizeEntries] at hcs
      have hp1 := size_pos e.2
      simp only [snapEntriesList, List.map_append, List.mem_append] at hk
      rcases hk with hk | hk
      · rcases htree e.2 (q ++ [e.1]) k (by omega) hk with ⟨s, hs⟩
        exact ⟨e.1, s, by simp, by simp [hs]⟩
      · rcases ihl q k (by omega) hk with ⟨n, s, hn, hks⟩
        exact ⟨n, s, by simp [hn], hks⟩

theorem snapEntries_region {c : FTree} {q k : TPath} {v : List TPath}
    (h : mapFindSnap (snapEntries q c) k = some v) : ∃ s, k = q ++ s :=
  (snapKeys_region c.size).1 c q k (le_refl _) (mapFindSnap_some_mem h)

theorem snapEntries_none_of_out {c : FTree} {q k : TPath}
    (h : ∀ s, k ≠ q ++ s) : mapFindSnap (snapEntries q c) k = none := by
  cases hf : mapFindSnap (snapEntries q c) k with
  | none => rfl
  | some v =>
    rcases snapEntries_region hf with ⟨s, hs⟩
    exact absurd hs (h s)

theorem snapList_region {cs : List (String × FTree)} {q : TPath} {n : String}
    {c' : FTree} (hnd : (cs.map Prod.fst).Nodup) (hm : (n, c') ∈ cs)
    {k : TPath} {s : TPath} (hk : k = (q ++ [n]) ++ s) :
    mapFindSnap (snapEntriesList q cs) k =
      mapFindSnap (snapEntries (q ++ [n]) c') k := by
  induction cs with
  | nil => simp at hm
  | cons e tl ih =>
    rcases e with ⟨n0, c0⟩
    simp only [List.map_cons, List.nodup_cons] at hnd
    by_cases hn0 : n0 = n
    · subst hn0
      have hc0 : c0 = c' := by
        rcases List.mem_cons.mp hm with hm | hm
        · cases hm; rfl
        · exact absurd (by simpa using List.mem_map_of_mem Prod.fst hm) hnd.1
      subst hc0
      rw [snapEntriesList]
      cases hf : mapFindSnap (snapEntries (q ++ [n0]) c0) k with
      | some v => rw [mapFindSnap_append_left_some hf]
      | none =>
        rw [mapFindSnap_append_left_none hf]
        cases hf2 : mapFindSnap (snapEntriesList q tl) k with
        | none => rfl
        | some w =>
          rcases (snapKeys_region (sizeEntries tl)).2 tl q k (le_refl _)
            (mapFindSnap_some_mem hf2) with ⟨n2, s2, hn2, hks⟩
          rw [hk, List.append_assoc, List.singleton_append] at hks
          have : n0 :: s = n2 :: s2 := List.append_cancel_left hks
          cases this
          exact absurd hn2 hnd.1
    · have hm' : (n, c') ∈ tl := by
        rcases List.mem_cons.mp hm with hm | hm
        · cases hm; exact absurd rfl hn0
        · exact hm
      rw [snapEntriesList]
      have hf : mapFindSnap (snapEntries (q ++ [n0]) c0) k = none := by
        refine snapEntries_none_of_out ?_
        intro s0 hc
        rw [hk, List.append_assoc, List.singleton_append,
          List.append_assoc, List.singleton_append] at hc
        have : n0 :: s0 = n :: s := List.append_cancel_left hc.symm
        cases this
        exact hn0 rfl
      rw [mapFindSnap_append_left_none hf]
      exact ih hnd.2 hm'

/-! ### A pointwise copy of the subtree snapshot satisfies `Agree` -/

theorem agreeList_of_members :
    ∀ (cs : List (String × FTree)) (q : TPath) (m : SnapMap),
    (∀ e, e ∈ cs → Agree m (q ++ [e.1]) e.2) →
    AgreeList m q cs := by
  intro cs
  induction cs with
  | nil => intro q m _; rw [AgreeList]; trivial
  | cons e tl ih =>
    intro q m h
    rw [AgreeList]
    exact ⟨h e (by simp), ih q m (fun e' he' => h e' (by simp [he']))⟩

theorem agree_region (N : Nat) :
    ∀ (c : FTree) (q : TPath) (m : SnapMap), c.size ≤ N → c.wfB = true →
    (∀ k, (∃ s, k = q ++ s) →
      mapFindSnap m k = mapFindSnap (snapEntries q c) k) →
    Agree m q c := by
  induction N with
  | zero =>
    intro c q m hc
    have := size_pos c
    omega
  | succ N ih =>
    intro c q m hc hwf hpt
    cases c with
    | file =>
      rw [Agree, hpt q ⟨[], by simp⟩]
      rfl
    | dir cs =>
      rw [FTree.size] at hc
      have hparts := wfB_dir_parts hwf
      rw [Agree]
      constructor
      · rw [hpt q ⟨[], by simp⟩]
        simp [snapEntries, mapFindSnap]
      · refine agreeList_of_members cs q m ?_
        intro e he
        have he' : (e.1, e.2) ∈ cs := by simpa using he
        refine ih e.2 (q ++ [e.1]) m ?_ (wfEntries_mem he' hparts.2) ?_
        · have h1 := size_le_of_mem he'
          omega
        · intro k hk
          rcases hk with ⟨s, hs⟩
          have h1 := hpt k ⟨e.1 :: s, by rw [hs, List.append_assoc,
            List.singleton_append]⟩
          rw [h1, snapEntries]
          have hq : ¬ ((q == k) = true) := by
            simp only [beq_iff_eq]
            intro hc2
            rw [hs, List.append_assoc, List.singleton_append] at hc2
            simpa using congrArg List.length hc2
          rw [mapFindSnap, if_neg hq]
          exact snapList_region hparts.1 he' hs


/-! ### Helpers for the BFS queue loop -/

theorem findEntry_of_mem_nodup {cs : List (String × FTree)} {n : String}
    {c : FTree} (hnd : (cs.map Prod.fst).Nodup) (hm : (n, c) ∈ cs) :
    findEntry cs n = some c := by
  induction cs with
  | nil => simp at hm
  | cons e tl ih =>
    simp only [List.map_cons, List.nodup_cons] at hnd
    rcases List.mem_cons.mp hm with hm | hm
    · cases hm
      simp [findEntry]
    · have hne : ¬ (e.1 == n) = true := by
        simp only [beq_iff_eq]
        intro hc
        exact hnd.1 (by rw [hc]; simpa using List.mem_map_of_mem Prod.fst hm)
      rw [findEntry, if_neg hne]
      exact ih hnd.2 hm

theorem filter_dirs_enqueue (cs : List (String × FTree)) (q : TPath) :
    ((cs.map fun e => (e.1, e.2.isDirB)).filter fun e => e.2).map
        (fun e => q ++ [e.1]) =
      ((cs.filter fun e => e.2.isDirB).map fun e => (q ++ [e.1], e.2)).map
        Prod.fst := by
  induction cs with
  | nil => rfl
  | cons e tl ih =>
    cases hd : e.2.isDirB with
    | false => simpa [List.filter_cons, hd] using ih
    | true => simpa [List.filter_cons, hd] using ih

theorem contents_children (cs : List (String × FTree)) (q : TPath) :
    (cs.map fun e => (e.1, e.2.isDirB)).map (fun e => q ++ [e.1]) =
      cs.map (fun e => q ++ [e.1]) := by
  simp [List.map_map]

theorem snapEntriesList_eq_flatten (q : TPath) (cs : List (String × FTree)) :
    snapEntriesList q cs =
      (((cs.filter fun e => e.2.isDirB).map fun e => (q ++ [e.1], e.2)).map
        (fun e => snapEntries e.1 e.2)).flatten := by
  induction cs with
  | nil => rfl
  | cons e tl ih =>
    rcases e with ⟨n, c⟩
    cases c with
    | file => simpa [snapEntriesList, List.filter_cons, FTree.isDirB, snapEntries] using ih
    | dir ds => simpa [snapEntriesList, List.filter_cons, FTree.isDirB] using ih

theorem dirCount_filter_sum (q0 : TPath) (cs : List (String × FTree)) :
    (((cs.filter fun e => e.2.isDirB).map fun e => (q0 ++ [e.1], e.2)).map
      (fun e => dirCount e.2)).sum = dirCountEntries cs := by
  induction cs with
  | nil => rfl
  | cons e tl ih =>
    rcases e with ⟨n, c⟩
    cases c with
    | file =>
      have hp : ((n, FTree.file) :: tl).filter (fun e => e.2.isDirB) =
          tl.filter (fun e => e.2.isDirB) := by
        rw [List.filter_cons]; simp [FTree.isDirB]
      rw [hp, ih, dirCountEntries]
      show dirCountEntries tl = dirCount FTree.file + dirCountEntries tl
      rw [dirCount]
      omega
    | dir ds =>
      have hp : ((n, FTree.dir ds) :: tl).filter (fun e => e.2.isDirB) =
          (n, FTree.dir ds) :: tl.filter (fun e => e.2.isDirB) := by
        rw [List.filter_cons]; simp [FTree.isDirB]
      rw [hp, List.map_cons, List.map_cons, List.sum_cons, ih, dirCountEntries]

theorem append_comparable {a b s t : TPath} (h : a ++ s = b ++ t) :
    (∃ u, b = a ++ u) ∨ (∃ u, a = b ++ u) := by
  rcases List.append_eq_append_iff.mp h with ⟨u, hu, _⟩ | ⟨u, hu, _⟩
  · exact Or.inl ⟨u, hu⟩
  · exact Or.inr ⟨u, hu⟩

theorem flatten_keys {L : List SnapMap} {k : TPath}
    (h : k ∈ L.flatten.map Prod.fst) : ∃ l ∈ L, k ∈ l.map Prod.fst := by
  rcases List.mem_map.mp h with ⟨e, he, hk⟩
  rcases List.mem_flatten.mp he with ⟨l, hl, hel⟩
  exact ⟨l, hl, by rw [← hk]; exact List.mem_map_of_mem Prod.fst hel⟩

theorem bfsLoop_indep (σ : FTree) :
    ∀ (fuel : Nat) (Q : List TPath) (m0 : SnapMap),
    bfsLoop σ fuel Q m0 = (bfsLoop σ fuel Q []).map (fun M => m0 ++ M) := by
  intro fuel
  induction fuel with
  | zero => intro Q m0; rfl
  | succ f ih =>
    intro Q m0
    cases Q with
    | nil => simp [bfsLoop]
    | cons q rest =>
      cases hdm : isDirM σ q with
      | none => simp [bfsLoop, hdm]
      | some b =>
        cases b with
        | false => simp only [bfsLoop, hdm]; exact ih rest m0
        | true =>
          cases hrd : readDirM σ q with
          | none => simp [bfsLoop, hdm, hrd]
          | some contents =>
            simp only [bfsLoop, hdm, hrd, List.nil_append]
            rw [ih _ (m0 ++ [(q, contents.map fun e => q ++ [e.1])]),
              ih _ ([(q, contents.map fun e => q ++ [e.1])])]
            cases bfsLoop σ f
                (rest ++ (contents.filter fun e => e.2).map fun e => q ++ [e.1])
                [] with
            | none => rfl
            | some M => simp


theorem bfsLoop_spec (σ : FTree) :
    ∀ (fuel : Nat) (QT : List (TPath × FTree)),
    (∀ e ∈ QT, treeLookup σ e.1 = some e.2 ∧ e.2.isDirB = true ∧ e.2.wfB = true) →
    List.Pairwise (fun a b => (∀ s, b.1 ≠ a.1 ++ s) ∧ (∀ s, a.1 ≠ b.1 ++ s)) QT →
    (QT.map fun e => dirCount e.2).sum < fuel →
    ∃ M, bfsLoop σ fuel (QT.map Prod.fst) [] = some M ∧
      ∀ r, mapFindSnap M r =
        mapFindSnap ((QT.map fun e => snapEntries e.1 e.2).flatten) r := by
  intro fuel
  induction fuel with
  | zero => intro QT _ _ h; omega
  | succ f ih =>
    intro QT hmem hpair hwork
    cases QT with
    | nil => exact ⟨[], rfl, fun r => rfl⟩
    | cons hd rest =>
      rcases hd with ⟨q, c⟩
      obtain ⟨hlq, hdirq, hwfq⟩ := hmem (q, c) (by simp)
      cases c with
      | file => rw [FTree.isDirB] at hdirq; exact absurd hdirq (by simp)
      | dir cs =>
        have hparts := wfB_dir_parts hwfq
        have hdm : isDirM σ q = some true := by
          rw [isDirM_of_lookup hlq]; rfl
        have hrd := readDirM_dir hlq
        rw [List.pairwise_cons] at hpair
        have hmem' : ∀ e ∈ rest ++ ((cs.filter fun x => x.2.isDirB).map
            fun x => (q ++ [x.1], x.2)),
            treeLookup σ e.1 = some e.2 ∧ e.2.isDirB = true ∧ e.2.wfB = true := by
          intro e he
          rcases List.mem_append.mp he with he | he
          · exact hmem e (by simp [he])
          · rcases List.mem_map.mp he with ⟨x, hx, hex⟩
            have hxm := List.mem_filter.mp hx
            have hfe := findEntry_of_mem_nodup hparts.1
              (show (x.1, x.2) ∈ cs from hxm.1)
            cases hex
            exact ⟨treeLookup_child hlq hfe, hxm.2,
              wfEntries_mem (show (x.1, x.2) ∈ cs from hxm.1) hparts.2⟩
        have hpair' : List.Pairwise
            (fun a b => (∀ s, b.1 ≠ a.1 ++ s) ∧ (∀ s, a.1 ≠ b.1 ++ s))
            (rest ++ ((cs.filter fun x => x.2.isDirB).map
              fun x => (q ++ [x.1], x.2))) := by
          rw [List.pairwise_append]
          refine ⟨hpair.2, ?_, ?_⟩
          · have hndf : ((cs.filter fun x => x.2.isDirB).map Prod.fst).Nodup :=
              List.Nodup.sublist (List.Sublist.map _ (List.filter_sublist _))
                hparts.1
            have hnp : List.Pairwise (fun a b : String × FTree => a.1 ≠ b.1)
                (cs.filter fun x => x.2.isDirB) := List.pairwise_map.mp hndf
            rw [List.pairwise_map]
            refine hnp.imp ?_
            intro a b hab
            constructor
            · intro s hc
              rw [List.append_assoc, List.singleton_append] at hc
              have h2 := List.append_cancel_left hc
              injection h2 with h3 _
              exact hab h3.symm
            · intro s hc
              rw [List.append_assoc, List.singleton_append] at hc
              have h2 := List.append_cancel_left hc
              injection h2 with h3 _
              exact hab h3
          · intro a ha b hb
            rcases List.mem_map.mp hb with ⟨x, _, hbx⟩
            have hqa := hpair.1 a ha
            dsimp only at hqa
            cases hbx
            dsimp only
            constructor
            · intro s hc
              rcases append_comparable hc.symm with ⟨u, hu⟩ | ⟨u, hu⟩
              · exact hqa.2 u hu
              · exact hqa.1 u hu
            · intro s hc
              rw [List.append_assoc, List.singleton_append] at hc
              exact hqa.1 (x.1 :: s) hc
        have hwork' : ((rest ++ ((cs.filter fun x => x.2.isDirB).map
            fun x => (q ++ [x.1], x.2))).map fun e => dirCount e.2).sum < f := by
          rw [List.map_append, List.sum_append, dirCount_filter_sum q cs]
          rw [List.map_cons, List.sum_cons] at hwork
          have hdc : dirCount ((q, FTree.dir cs)).2 = 1 + dirCountEntries cs := by
            rw [dirCount]
          rw [hdc] at hwork
          omega
        rcases ih (rest ++ ((cs.filter fun x => x.2.isDirB).map
          fun x => (q ++ [x.1], x.2))) hmem' hpair' hwork' with ⟨M', hM', hpt'⟩
        refine ⟨(q, cs.map fun e => q ++ [e.1]) :: M', ?_, ?_⟩
        · simp only [List.map_cons, bfsLoop, hdm, hrd, List.nil_append]
          rw [filter_dirs_enqueue cs q, ← List.map_append,
            bfsLoop_indep σ f _ [(q, (cs.map fun e => (e.1, e.2.isDirB)).map
              fun e => q ++ [e.1])], hM']
          rw [contents_children cs q]
          rfl
        · intro r
          simp only [List.map_cons, List.flatten_cons]
          rw [show snapEntries q (.dir cs) =
            (q, cs.map fun e => q ++ [e.1]) :: snapEntriesList q cs from rfl]
          by_cases hqr : (q == r) = true
          · rw [mapFindSnap, if_pos hqr, List.cons_append, mapFindSnap,
              if_pos hqr]
          · rw [mapFindSnap, if_neg hqr, List.cons_append, mapFindSnap,
              if_neg hqr, hpt' r, List.map_append, List.flatten_append]
            have hB : ((((cs.filter fun x => x.2.isDirB).map
                fun x => (q ++ [x.1], x.2)).map
                  fun e => snapEntries e.1 e.2)).flatten =
                snapEntriesList q cs := (snapEntriesList_eq_flatten q cs).symm
            rw [hB]
            refine mapFindSnap_append_comm ?_ r
            intro k hkA hkB
            rcases flatten_keys hkA with ⟨l, hl, hkl⟩
            rcases List.mem_map.mp hl with ⟨e, he, hle⟩
            rw [← hle] at hkl
            rcases (snapKeys_region e.2.size).1 e.2 e.1 k (le_refl _) hkl
              with ⟨s, hks⟩
            rcases (snapKeys_region (sizeEntries cs)).2 cs q k (le_refl _) hkB
              with ⟨n, s2, _, hks2⟩
            have hqa := hpair.1 e he
            dsimp only at hqa
            rw [hks] at hks2
            rcases append_comparable hks2 with ⟨u, hu⟩ | ⟨u, hu⟩
            · exact hqa.2 u hu
            · exact hqa.1 u hu


theorem bfsBuild_agree {σ : FTree} {p : TPath} {cs : List (String × FTree)}
    (hl : treeLookup σ p = some (.dir cs)) (hwf : FTree.wfB (.dir cs) = true)
    {fuel : Nat} (hfuel : dirCount (.dir cs) < fuel) :
    ∃ M, bfsBuild σ p fuel = some M ∧ Agree M p (.dir cs) := by
  rcases bfsLoop_spec σ fuel [(p, .dir cs)]
      (by
        intro e he
        simp only [List.mem_singleton] at he
        cases he
        exact ⟨hl, rfl, hwf⟩)
      (by simp)
      (by simpa using hfuel)
    with ⟨M, hM, hpt⟩
  refine ⟨M, ?_, ?_⟩
  · rw [bfsBuild, readDirM_dir hl]
    simpa using hM
  · refine agree_region (FTree.size (.dir cs)) _ p M (le_refl _) hwf ?_
    intro k _
    rw [hpt k]
    simp

/-! ### The BFS delete pass computes `structClean` -/

theorem recDelete_file {m : SnapMap} {σ : FTree} {q : TPath} (f : Nat)
    (hag : Agree m q .file) (hl : treeLookup σ q = some .file) :
    recDelete m (f + 1) σ q = ⟨σ, [], 0, none⟩ := by
  rw [Agree] at hag
  have hdm : isDirM σ q = some false := by rw [isDirM_of_lookup hl]; rfl
  simp only [recDelete, hag, Option.getD_none, recDeleteList, hdm]

theorem recDeleteList_go (f : Nat) (m : SnapMap)
    (IH : ∀ {ds : List (String × FTree)} {σ' : FTree} {q' : TPath},
      FTree.wfB (.dir ds) = true →
      treeLookup σ' q' = some (.dir ds) →
      Agree m q' (.dir ds) →
      1 + sizeEntries ds ≤ f →
      recDelete m f σ' q' = specOutcome σ' q') :
    ∀ (rest done : List (String × FTree)) (σ : FTree) (q : TPath),
    treeLookup σ q = some (.dir (done ++ rest)) →
    ((done ++ rest).map Prod.fst).Nodup →
    wfEntries rest = true →
    AgreeList m q rest →
    sizeEntries rest ≤ f →
    recDeleteList (recDelete m f) σ (rest.map fun e => q ++ [e.1]) =
      ⟨updateAt σ q (some (.dir (done ++ (structCleanList rest).1))),
        (structCleanList rest).2.1.map (fun r => q ++ r),
        (structCleanList rest).2.2, none⟩ := by
  intro rest
  induction rest with
  | nil =>
    intro done σ q hlook _ _ _ _
    rw [List.append_nil] at hlook
    simp only [List.map_nil, recDeleteList, structCleanList, List.append_nil,
      updateAt_self hlook]
  | cons e rest2 ih =>
    rcases e with ⟨n, c⟩
    intro done σ q hlook hnd hwf hag hsz
    rw [wfEntries, Bool.and_eq_true] at hwf
    rw [sizeEntries] at hsz
    rw [AgreeList] at hag
    dsimp only at hwf hsz hag
    have hnd' := hnd
    rw [List.map_append, List.nodup_append] at hnd'
    have hnotdone : n ∉ done.map Prod.fst := fun hmem =>
      (hnd'.2.2 hmem) (by simp)
    have hfe : findEntry (done ++ (n, c) :: rest2) n = some c := by
      rw [findEntry_append_of_not_mem hnotdone]
      simp [findEntry]
    have hchild : treeLookup σ (q ++ [n]) = some c := treeLookup_child hlook hfe
    cases c with
    | file =>
      obtain ⟨f', rfl⟩ : ∃ f', f = f' + 1 := by
        have := size_pos FTree.file
        exact ⟨f - 1, by omega⟩
      have hr := recDelete_file f' hag.1 hchild
      have hlook2 : treeLookup σ q =
          some (.dir ((done ++ [(n, FTree.file)]) ++ rest2)) := by
        rw [List.append_assoc, List.singleton_append]; exact hlook
      have hnd2 : (((done ++ [(n, FTree.file)]) ++ rest2).map Prod.fst).Nodup := by
        rw [List.append_assoc, List.singleton_append]; exact hnd
      have hrec := ih (done ++ [(n, FTree.file)]) σ q hlook2 hnd2 hwf.2 hag.2
        (by have := size_pos FTree.file; omega)
      simp only [List.map_cons, recDeleteList, hr, hrec, structCleanList,
        structClean, List.append_assoc, List.singleton_append, List.map_nil,
        List.nil_append, Nat.zero_add]
    | dir ds =>
      have hszds : FTree.size (.dir ds) + sizeEntries rest2 ≤ f := hsz
      rw [FTree.size] at hszds
      have hspec := IH hwf.1 hchild hag.1 (by omega)
      rw [specOutcome_dir hchild (by simp)] at hspec
      have hup := updateAt_append (q := [n]) (by simp) hlook
        (structClean (.dir ds)).1
      cases hR : (structClean (.dir ds)).1 with
      | some t' =>
        rw [hR] at hup hspec
        rw [updateAt_dir_cons _ n [] (some t') (Or.inr rfl),
          updateEntriesF_congr (g := fun _ => some t')
            (fun c => by rw [updateAt_nil, Option.getD_some]) n,
          updateEntriesF_append_of_not_mem hnotdone,
          updateEntriesF_cons_self] at hup
        dsimp only at hup
        have hσ' : updateAt σ (q ++ [n]) (some t') =
            updateAt σ q (some (.dir ((done ++ [(n, t')]) ++ rest2))) := by
          rw [hup, List.append_assoc, List.singleton_append]
        rw [hσ'] at hspec
        have hlook2 : treeLookup
            (updateAt σ q (some (.dir ((done ++ [(n, t')]) ++ rest2)))) q =
            some (.dir ((done ++ [(n, t')]) ++ rest2)) :=
          treeLookup_updateAt_some hlook _
        have hnd2 : (((done ++ [(n, t')]) ++ rest2).map Prod.fst).Nodup := by
          simp only [List.append_assoc, List.singleton_append, List.map_append,
            List.map_cons] at hnd ⊢
          exact hnd
        have hrec := ih (done ++ [(n, t')]) _ q hlook2 hnd2 hwf.2 hag.2
          (by omega)
        simp only [List.append_assoc, List.singleton_append] at hrec
        simp only [List.map_cons, recDeleteList, hspec, hrec,
          updateAt_updateAt_some, structCleanList, hR,
          List.append_assoc, List.singleton_append, List.map_append,
          map_shift, Nat.zero_add]
      | none =>
        rw [hR] at hup hspec
        rw [updateAt_dir_cons_none,
          updateEntriesF_append_of_not_mem hnotdone,
          updateEntriesF_cons_self] at hup
        dsimp only at hup
        rw [hup] at hspec
        have hlook2 : treeLookup (updateAt σ q (some (.dir (done ++ rest2)))) q =
            some (.dir (done ++ rest2)) := treeLookup_updateAt_some hlook _
        have hnd2 : ((done ++ rest2).map Prod.fst).Nodup := by
          refine List.Nodup.sublist ?_ hnd
          refine List.Sublist.map _ ?_
          exact List.Sublist.append_left (List.sublist_cons_self _ _) done
        have hrec := ih done _ q hlook2 hnd2 hwf.2 hag.2 (by omega)
        simp only [List.map_cons, recDeleteList, hspec, hrec,
          updateAt_updateAt_some, structCleanList, hR,
          List.append_assoc, List.singleton_append, List.map_append,
          map_shift, Nat.zero_add, List.nil_append]

theorem recDelete_spec : ∀ (fuel : Nat) (m : SnapMap)
    {cs : List (String × FTree)} {σ : FTree} {q : TPath},
    FTree.wfB (.dir cs) = true →
    treeLookup σ q = some (.dir cs) →
    Agree m q (.dir cs) →
    1 + sizeEntries cs ≤ fuel →
    recDelete m fuel σ q = specOutcome σ q := by
  intro fuel
  induction fuel with
  | zero => intro m cs σ q _ _ _ h; omega
  | succ f ih =>
    intro m cs σ q hwf hl hag hfuel
    rw [Agree] at hag
    have hch : (mapFindSnap m q).getD [] = cs.map fun e => q ++ [e.1] := by
      rw [hag.1]; rfl
    have hitems := recDeleteList_go f m
      (fun hw hlq hagq hsz => ih m hw hlq hagq hsz) cs [] σ q
      (by simpa using hl) (by simpa using (wfB_dir_parts hwf).1)
      (wfB_dir_parts hwf).2 hag.2 (by omega)
    rw [List.nil_append] at hitems
    have hl2 : treeLookup (updateAt σ q (some (.dir (structCleanList cs).1))) q =
        some (.dir (structCleanList cs).1) := treeLookup_updateAt_some hl _
    simp only [recDelete, hch, hitems]
    have hdm2 : isDirM (updateAt σ q (some (.dir (structCleanList cs).1))) q =
        some true := by
      rw [isDirM_of_lookup hl2]; rfl
    simp only [hdm2]
    cases hEm : (structCleanList cs).1.isEmpty with
    | false =>
      simp only [isEmptyM_dir hl2, hEm]
      rw [specOutcome, hl]
      simp only [structClean, hEm, Bool.false_eq_true, if_false]
    | true =>
      rw [List.isEmpty_iff] at hEm
      have hem2 : isEmptyM (updateAt σ q (some (.dir (structCleanList cs).1))) q
          = some true := by
        rw [isEmptyM_dir hl2, hEm]; rfl
      simp only [hem2]
      rw [hEm]
      cases q with
      | nil =>
        simp only [removeM]
        rw [specOutcome, hl]
        simp [structClean, hEm, List.dropLast_concat, updateAt_nil]
      | cons a p' =>
        have hl3 : treeLookup
            (updateAt σ (a :: p') (some (FTree.dir ([] : List (String × FTree)))))
            (a :: p') = some (FTree.dir []) := treeLookup_updateAt_some hl _
        have hrm : removeM
            (updateAt σ (a :: p') (some (FTree.dir ([] : List (String × FTree)))))
            (a :: p') = some (updateAt σ (a :: p') none) := by
          simp only [removeM, hl3, List.isEmpty_nil, if_true]
          rw [updateAt_updateAt_ne (by simp)]
        simp only [hrm]
        rw [specOutcome, hl]
        simp [structClean, hEm, List.map_append]


/-! ### Common evaluation of a cleaner run, and the count/removals tie -/

theorem removeEmptyDirs_eval (algo : String) (σ : FTree) (p : TPath)
    (fuel : Nat) (hwf : σ.wfB = true) (hfuel : σ.size + 1 ≤ fuel) :
    removeEmptyDirsModel algo σ p fuel =
      (match treeLookup σ p with
       | some (.dir _) => (specOutcome σ p, Int.ofNat (specOutcome σ p).count)
       | _ => (⟨σ, [], 0, some GoErr.errReadDir⟩, 0)) := by
  have hσ1 := size_pos σ
  obtain ⟨f, rfl⟩ : ∃ f, fuel = f + 1 := ⟨fuel - 1, by omega⟩
  by_cases hB : algo = "BFS"
  · subst hB
    have halgo : removeEmptyDirsModel "BFS" σ p (f + 1) =
        (match bfsBuild σ p (f + 1) with
         | none => (⟨σ, [], 0, some GoErr.errReadDir⟩, 0)
         | some m =>
           (recDelete m (f + 1) σ p,
             Int.ofNat (recDelete m (f + 1) σ p).count)) := rfl
    rw [halgo]
    cases hlp : treeLookup σ p with
    | none =>
      have hrd : readDirM σ p = none := by rw [readDirM, hlp]
      rw [bfsBuild, hrd]
    | some t =>
      cases t with
      | file =>
        have hrd : readDirM σ p = none := by rw [readDirM, hlp]
        rw [bfsBuild, hrd]
      | dir cs =>
        have hwfs : FTree.wfB (.dir cs) = true := wfB_treeLookup hwf hlp
        have hszle := treeLookup_size_le hlp
        have hsize : FTree.size (.dir cs) = 1 + sizeEntries cs := by
          rw [FTree.size]
        have hdc : dirCount (.dir cs) < f + 1 := by
          have h1 := dirCount_le_size (.dir cs)
          omega
        rcases bfsBuild_agree hlp hwfs hdc with ⟨M, hM, hag⟩
        have hrec := recDelete_spec (f + 1) M hwfs hlp hag (by omega)
        simp only [hM, hrec]
  · have halgo : removeEmptyDirsModel algo σ p (f + 1) =
        (dfsGo (f + 1) σ p, Int.ofNat (dfsGo (f + 1) σ p).count) := by
      by_cases hD : algo = "DFS"
      · subst hD; rfl
      · have hcond : (if algo ≠ "DFS" ∧ algo ≠ "BFS" then "DFS" else algo)
            = "DFS" := if_pos (And.intro hD hB)
        simp only [removeEmptyDirsModel, hcond]
        rw [if_neg (by decide : ¬ ("DFS" : String) = "BFS")]
    rw [halgo]
    cases hlp : treeLookup σ p with
    | none =>
      have hrd : readDirM σ p = none := by rw [readDirM, hlp]
      simp [dfsGo, hrd]
    | some t =>
      cases t with
      | file =>
        have hrd : readDirM σ p = none := by rw [readDirM, hlp]
        simp [dfsGo, hrd]
      | dir cs =>
        have hwfs : FTree.wfB (.dir cs) = true := wfB_treeLookup hwf hlp
        have hszle := treeLookup_size_le hlp
        have hsize : FTree.size (.dir cs) = 1 + sizeEntries cs := by
          rw [FTree.size]
        have hdfs := dfsGo_spec (f + 1) hwfs hlp (by omega)
        rw [hdfs]

/-- Claim C1: for every (well-formed) filesystem state and every base path,
running the empty-subtree cleaner with the BFS-then-delete strategy and with
the inline DFS strategy produce identical outcomes: the same final state, the
same removed directories (in the same order), the same `esc.Count`, the same
error, and the same returned `int` — given enough fuel for the model's
bounded recursion (any `fuel > size σ`). -/
theorem claim_c1_strategies_equivalent (σ : FTree) (p : TPath) (fuel : Nat)
    (hwf : σ.wfB = true) (hfuel : σ.size + 1 ≤ fuel) :
    removeEmptyDirsModel "BFS" σ p fuel = removeEmptyDirsModel "DFS" σ p fuel := by
  rw [removeEmptyDirs_eval "BFS" σ p fuel hwf hfuel,
    removeEmptyDirs_eval "DFS" σ p fuel hwf hfuel]

/-- Witness for claim C1 at a concrete state: a base directory containing an
empty subdirectory and a file; both strategies coincide. -/
theorem claim_c1_witness :
    FTree.wfB (FTree.dir [("base", FTree.dir
      [("sub", FTree.dir []), ("f", FTree.file)])]) = true ∧
    FTree.size (FTree.dir [("base", FTree.dir
      [("sub", FTree.dir []), ("f", FTree.file)])]) + 1 ≤ 10 ∧
    removeEmptyDirsModel "BFS" (FTree.dir [("base", FTree.dir
      [("sub", FTree.dir []), ("f", FTree.file)])]) ["base"] 10 =
      removeEmptyDirsModel "DFS" (FTree.dir [("base", FTree.dir
        [("sub", FTree.dir []), ("f", FTree.file)])]) ["base"] 10 :=
  ⟨by simp [FTree.wfB, wfEntries, namesNodup],
    by simp only [FTree.size, sizeEntries]; omega,
    claim_c1_strategies_equivalent _ ["base"] 10
      (by simp [FTree.wfB, wfEntries, namesNodup])
      (by simp only [FTree.size, sizeEntries]; omega)⟩

end FSV
